import Mathlib

/-!
# QualityControl: MergeableTH2Ratio and the MID DigitsQcTask

A shallow embedding of

* `Modules/MUON/MCH/include/MCH/MergeableTH2Ratio.h` (class `MergeableTH2Ratio`), and
* `Modules/MUON/MID/src/DigitsQcTask.cxx` (the hit counters, `getROFSize` and the
  frame loops of `monitorData`),

followed by the properties established about them.

Bin contents are rationals.  Every machine operation is the exact operation followed by a
rounding step taken from a `Rounding` record (`toFloat` for the `Float_t` bin storage of a
`TH2F`, `toDouble` for `double` arithmetic), so that statements quantified over every
`Rounding` hold in particular for IEEE arithmetic (`Rounding.ieee`) and for exact
arithmetic (`Rounding.exact`).
-/

namespace QC

/-! ## Rounding -/

/-- Rounding of the two machine formats used by the histogram code. -/
structure Rounding where
  /-- conversion to `Float_t`, the storage type of a `TH2F` bin -/
  toFloat : ℚ → ℚ
  /-- conversion to `double` -/
  toDouble : ℚ → ℚ

/-- Integer nearest to `r`, ties going to the even neighbour. -/
def roundHalfEven (r : ℚ) : ℤ :=
  let f := ⌊r⌋
  let d := r - f
  if d < 1 / 2 then f
  else if 1 / 2 < d then f + 1
  else if f % 2 = 0 then f else f + 1

/-- Round-to-nearest-even onto the binary format with a `p`-bit significand
(unbounded exponent range: overflow and subnormals are not represented). -/
def roundBinary (p : ℕ) (q : ℚ) : ℚ :=
  if q = 0 then 0
  else
    let ulp : ℚ := (2 : ℚ) ^ (Int.log 2 |q| - ((p : ℤ) - 1))
    (roundHalfEven (q / ulp) : ℚ) * ulp

/-- Exact arithmetic: no operation rounds. -/
def Rounding.exact : Rounding := ⟨fun q => q, fun q => q⟩

/-- IEEE-754 binary32 storage and binary64 arithmetic, round-to-nearest-even. -/
def Rounding.ieee : Rounding := ⟨roundBinary 24, roundBinary 53⟩

/-! ## The histogram `TH2F` (the part of it the two sources use) -/

/-- One axis of a histogram: `TAxis` with `fNbins`, `fXmin`, `fXmax`. -/
structure Axis where
  nbins : ℕ
  xmin : ℚ
  xmax : ℚ
  deriving DecidableEq

/-- Modelled from the spec: the axis lookup of `BinGrid.fill` ("maps real-valued (x,y) to
the enclosing bin using the fixed axis range/bin-count"), in the numbering of `TAxis::FindBin`:
bins `1..nbins` are the in-range bins, `0` stands for a coordinate below the range and
`nbins + 1` for one at or above its upper edge. -/
def Axis.FindBin (a : Axis) (x : ℚ) : ℕ :=
  if x < a.xmin then 0
  else if ¬ x < a.xmax then a.nbins + 1
  else 1 + ⌊(a.nbins : ℚ) * (x - a.xmin) / (a.xmax - a.xmin)⌋.toNat

/-- A bin number that lies inside the axis range. -/
def Axis.inRange (a : Axis) (b : ℕ) : Prop := 1 ≤ b ∧ b ≤ a.nbins

instance (a : Axis) (b : ℕ) : Decidable (a.inRange b) := by
  unfold Axis.inRange; infer_instance

/-- A two-dimensional histogram: two axes and the bin contents addressed by global bin
number `biny * (nbinsx + 2) + binx`. -/
structure TH2F where
  xaxis : Axis
  yaxis : Axis
  cells : ℕ → ℚ

namespace TH2F

/-- Constructor `TH2F(name, title, nbinsx, xmin, xmax, nbinsy, ymin, ymax)`: all bins zero. -/
def new (nbinsx : ℕ) (xmin xmax : ℚ) (nbinsy : ℕ) (ymin ymax : ℚ) : TH2F :=
  ⟨⟨nbinsx, xmin, xmax⟩, ⟨nbinsy, ymin, ymax⟩, fun _ => 0⟩

/-- Two histograms have the same shape: equal bin counts and axis ranges. -/
def sameShape (h g : TH2F) : Prop := h.xaxis = g.xaxis ∧ h.yaxis = g.yaxis

instance (h g : TH2F) : Decidable (h.sameShape g) := by
  unfold sameShape; infer_instance

/-- Global bin number of the bin pair `(binx, biny)`. -/
def GetBin (h : TH2F) (binx biny : ℕ) : ℕ := biny * (h.xaxis.nbins + 2) + binx

/-- Global bin number of the bin enclosing the point `(x, y)`. -/
def FindBin (h : TH2F) (x y : ℚ) : ℕ := h.GetBin (h.xaxis.FindBin x) (h.yaxis.FindBin y)

/-- Content of a global bin. -/
def GetBinContent (h : TH2F) (bin : ℕ) : ℚ := h.cells bin

/-- Reset: `Reset()` sets every bin to zero. -/
def Reset (h : TH2F) : TH2F := { h with cells := fun _ => 0 }

/-- Weighted fill `Fill(x, y, w)`: the weight is added, in `Float_t`, to the bin
enclosing `(x, y)` (the bins numbered `0` and `nbins + 1` collect what falls outside). -/
def Fill (R : Rounding) (h : TH2F) (x y w : ℚ) : TH2F :=
  let bin := h.FindBin x y
  { h with cells := Function.update h.cells bin (R.toFloat (h.cells bin + R.toFloat w)) }

/-- Modelled from the spec: `BinGrid.addFrom` ("requires identical shape; adds other's bin
values elementwise into this grid; fails with ShapeMismatch otherwise"), with the calling
convention of `Bool_t TH1::Add(const TH1*)`: the status is the returned flag, and a failed
call leaves the histogram as it was. -/
def Add (R : Rounding) (h other : TH2F) : Bool × TH2F :=
  if (h.sameShape other) then
    (true, { h with cells := fun i => R.toFloat (h.cells i + other.cells i) })
  else (false, h)

/-- Modelled from the spec: `BinGrid.divideBy` ("out[i] = numerator[i] / denominator[i] when
denominator[i] != 0, else out[i] = 0 ... Requires identical shape"), with the calling
convention of `Bool_t TH1::Divide(const TH1*, const TH1*)`: the quotient is formed in
`double` and stored as `Float_t`. -/
def Divide (R : Rounding) (h h1 h2 : TH2F) : Bool × TH2F :=
  if (h.sameShape h1 ∧ h1.sameShape h2) then
    (true, { h with cells := fun i =>
      if (h2.cells i ≠ 0) then R.toFloat (R.toDouble (h1.cells i / h2.cells i)) else 0 })
  else (false, h)

/-- Scaling `Scale(c)`: every bin is multiplied by `c` in `double` and stored as `Float_t`. -/
def Scale (R : Rounding) (h : TH2F) (c : ℚ) : TH2F :=
  { h with cells := fun i => R.toFloat (R.toDouble (c * h.cells i)) }

/-- Clone: `Clone()` yields a histogram with the same axes and contents. -/
def Clone (h : TH2F) : TH2F := ⟨h.xaxis, h.yaxis, h.cells⟩

end TH2F

/-! ## `MergeableTH2Ratio` -/

/-- The class `MergeableTH2Ratio`: the `TH2F` base object holds the ratio, `mHistoNum` and
`mHistoDen` are the owned numerator and denominator, `mScalingFactor` the scaling flag. -/
structure MergeableTH2Ratio where
  base : TH2F
  mHistoNum : TH2F
  mHistoDen : TH2F
  mScalingFactor : ℚ

namespace MergeableTH2Ratio

/-- Orbit length constant `sOrbitLengthInNanoseconds = 3564 * 25`. -/
def sOrbitLengthInNanoseconds (R : Rounding) : ℚ := R.toDouble (3564 * 25)

/-- Orbit length constant `sOrbitLengthInMicroseconds = sOrbitLengthInNanoseconds / 1000`. -/
def sOrbitLengthInMicroseconds (R : Rounding) : ℚ :=
  R.toDouble (sOrbitLengthInNanoseconds R / 1000)

/-- Orbit length constant `sOrbitLengthInMilliseconds = sOrbitLengthInMicroseconds / 1000`. -/
def sOrbitLengthInMilliseconds (R : Rounding) : ℚ :=
  R.toDouble (sOrbitLengthInMicroseconds R / 1000)

def getNum (m : MergeableTH2Ratio) : TH2F := m.mHistoNum

def getDen (m : MergeableTH2Ratio) : TH2F := m.mHistoDen

def getScalingFactor (m : MergeableTH2Ratio) : ℚ := m.mScalingFactor

/-- Method `update()`: the base histogram is reset, takes the axes of the numerator, is
filled with numerator / denominator, and is rescaled when `mScalingFactor != 1.`. -/
def update (R : Rounding) (m : MergeableTH2Ratio) : MergeableTH2Ratio :=
  -- Reset(); GetXaxis()->Set(...); GetYaxis()->Set(...); SetBinsLength();
  let h0 : TH2F := ⟨m.mHistoNum.xaxis, m.mHistoNum.yaxis, fun _ => 0⟩
  -- Divide(mHistoNum, mHistoDen);
  let h1 := (h0.Divide R m.mHistoNum m.mHistoDen).2
  -- if (mScalingFactor != 1.) Scale(1. / sOrbitLengthInMilliseconds);
  let h2 := if (m.mScalingFactor ≠ 1) then
      h1.Scale R (R.toDouble (1 / sOrbitLengthInMilliseconds R))
    else h1
  { m with base := h2 }

/-- Constructor with an explicit shape: empty numerator and denominator, then `update()`. -/
def new (R : Rounding) (nbinsx : ℕ) (xmin xmax : ℚ) (nbinsy : ℕ) (ymin ymax : ℚ)
    (scaling : ℚ) : MergeableTH2Ratio :=
  update R
    ⟨TH2F.new nbinsx xmin xmax nbinsy ymin ymax,
     TH2F.new nbinsx xmin xmax nbinsy ymin ymax,
     TH2F.new nbinsx xmin xmax nbinsy ymin ymax,
     scaling⟩

/-- Copy constructor: a fresh base histogram with the shape of the numerator of the
original, clones of its numerator and denominator, and its scaling factor. No `update()`. -/
def copy (copymerge : MergeableTH2Ratio) : MergeableTH2Ratio :=
  ⟨TH2F.new copymerge.getNum.xaxis.nbins copymerge.getNum.xaxis.xmin copymerge.getNum.xaxis.xmax
      copymerge.getNum.yaxis.nbins copymerge.getNum.yaxis.xmin copymerge.getNum.yaxis.xmax,
   copymerge.getNum.Clone,
   copymerge.getDen.Clone,
   copymerge.getScalingFactor⟩

/-- Method `merge(other)`: adds the numerator and the denominator of `other` (the status
flags of the two `Add` calls are dropped), then calls `update()`. -/
def merge (R : Rounding) (m other : MergeableTH2Ratio) : MergeableTH2Ratio :=
  let num := (m.mHistoNum.Add R other.getNum).2
  let den := (m.mHistoDen.Add R other.getDen).2
  update R { m with mHistoNum := num, mHistoDen := den }

/-- Shape of an accumulator: numerator and denominator have the same shape. -/
def wellFormed (m : MergeableTH2Ratio) : Prop := m.mHistoNum.sameShape m.mHistoDen

instance (m : MergeableTH2Ratio) : Decidable m.wellFormed := by
  unfold wellFormed; infer_instance

/-- Two accumulators have the same shape. -/
def sameShape (a b : MergeableTH2Ratio) : Prop :=
  a.mHistoNum.sameShape b.mHistoNum ∧ a.mHistoDen.sameShape b.mHistoDen

instance (a b : MergeableTH2Ratio) : Decidable (a.sameShape b) := by
  unfold sameShape; infer_instance

/-- A raw fill of an accumulator: `getNum()->Fill(x, y, w)` or `getDen()->Fill(x, y, w)`. -/
inductive FillOp where
  | num (x y w : ℚ)
  | den (x y w : ℚ)

/-- One raw fill applied to the numerator or to the denominator. -/
def applyFill (R : Rounding) (m : MergeableTH2Ratio) : FillOp → MergeableTH2Ratio
  | .num x y w => { m with mHistoNum := m.getNum.Fill R x y w }
  | .den x y w => { m with mHistoDen := m.getDen.Fill R x y w }

/-- A sequence of raw fills, applied in order. -/
def applyFills (R : Rounding) (m : MergeableTH2Ratio) (ops : List FillOp) : MergeableTH2Ratio :=
  ops.foldl (applyFill R) m

/-- The weight of a raw fill. -/
def FillOp.weight : FillOp → ℚ
  | .num _ _ w => w
  | .den _ _ w => w

/-- A raw fill whose weight is a whole number (0, 1, 2, ...). -/
def FillOp.whole (op : FillOp) : Prop := op.weight = ((⌊op.weight⌋₊ : ℕ) : ℚ)

/-- Total weight that the numerator fills among `ops` send to the global bin `i` of a
histogram with the axes of `g`, the weights being whole numbers. -/
def numTotalAt (g : TH2F) (i : ℕ) (ops : List FillOp) : ℕ :=
  (ops.map (fun op =>
    match op with
    | .num x y w => if g.FindBin x y = i then ⌊w⌋₊ else 0
    | .den _ _ _ => 0)).sum

/-- Total weight that the denominator fills among `ops` send to the global bin `i` of a
histogram with the axes of `g`, the weights being whole numbers. -/
def denTotalAt (g : TH2F) (i : ℕ) (ops : List FillOp) : ℕ :=
  (ops.map (fun op =>
    match op with
    | .num _ _ _ => 0
    | .den x y w => if g.FindBin x y = i then ⌊w⌋₊ else 0)).sum

/-- The quotient stored by `Divide` in bin `i`: numerator / denominator, and `0` where the
denominator bin is zero. -/
def quotient (R : Rounding) (num den : ℚ) : ℚ :=
  if (den ≠ 0) then R.toFloat (R.toDouble (num / den)) else 0

/-- The multiplier handed to `Scale` by `update()`: `1. / sOrbitLengthInMilliseconds`. -/
def rescale (R : Rounding) : ℚ := R.toDouble (1 / sOrbitLengthInMilliseconds R)

end MergeableTH2Ratio

/-! ## Ownership: the two histograms held by pointer -/

/-- The free store: the histograms created with `new` or `Clone()`, a pointer being the
position of its histogram. -/
abbrev Store := List TH2F

/-- A `MergeableTH2Ratio` object as laid out in the class: the `TH2F` base, the pointers
`mHistoNum` and `mHistoDen` to the owned histograms, and the scaling factor. -/
structure RatioObject where
  base : TH2F
  mHistoNum : ℕ
  mHistoDen : ℕ
  mScalingFactor : ℚ

namespace RatioObject

/-- The value of an object: its pointers dereferenced (`none` for a dangling pointer). -/
def load (S : Store) (o : RatioObject) : Option MergeableTH2Ratio :=
  match S[o.mHistoNum]?, S[o.mHistoDen]? with
  | some num, some den => some ⟨o.base, num, den, o.mScalingFactor⟩
  | _, _ => none

/-- Copy constructor on the store: the clones of numerator and denominator are two newly
created histograms, and the new object points to them. -/
def copy (S : Store) (copymerge : RatioObject) : Option (Store × RatioObject) :=
  match copymerge.load S with
  | some m =>
    some (S ++ [(MergeableTH2Ratio.copy m).mHistoNum, (MergeableTH2Ratio.copy m).mHistoDen],
      ⟨(MergeableTH2Ratio.copy m).base, S.length, S.length + 1,
        (MergeableTH2Ratio.copy m).mScalingFactor⟩)
  | none => none

/-- A mutation of an object: a fill of its numerator, a fill of its denominator, or a merge
of another object into it. -/
inductive Mutation where
  | fillNum (x y w : ℚ)
  | fillDen (x y w : ℚ)
  | merge (other : RatioObject)

/-- One mutation carried out on the store: `getNum()->Fill`, `getDen()->Fill` or `merge`
write through the pointers of the object. -/
def mutate (R : Rounding) (S : Store) (o : RatioObject) : Mutation → Option (Store × RatioObject)
  | .fillNum x y w =>
    match S[o.mHistoNum]? with
    | some h => some (S.set o.mHistoNum (h.Fill R x y w), o)
    | none => none
  | .fillDen x y w =>
    match S[o.mHistoDen]? with
    | some h => some (S.set o.mHistoDen (h.Fill R x y w), o)
    | none => none
  | .merge other =>
    match o.load S, other.load S with
    | some m, some b =>
      some ((S.set o.mHistoNum (MergeableTH2Ratio.merge R m b).mHistoNum).set o.mHistoDen
          (MergeableTH2Ratio.merge R m b).mHistoDen,
        { o with base := (MergeableTH2Ratio.merge R m b).base })
    | _, _ => none

/-- A mutation whose operand, if any, points into the store. -/
def Mutation.valid (S : Store) : Mutation → Prop
  | .merge other => other.mHistoNum < S.length ∧ other.mHistoDen < S.length
  | _ => True

/-- A sequence of mutations of one object, in order. -/
def mutateAll (R : Rounding) : Store → RatioObject → List Mutation → Option (Store × RatioObject)
  | S, o, [] => some (S, o)
  | S, o, μ :: rest =>
    match mutate R S o μ with
    | some (S1, o1) => mutateAll R S1 o1 rest
    | none => none

end RatioObject

/-! ## `DigitsQcTask`: hit counting, frame sizes and the frame loops of `monitorData` -/

/-- Hit record `o2::mid::ColumnData`: detection element, column and the five 16-bit strip
patterns (indices 0..3 bending plane, index 4 non-bending plane). -/
structure ColumnData where
  deId : ℕ
  columnId : ℕ
  patterns : Fin 5 → Fin 65536

/-- Modelled from the spec: the time-reference of a frame (`o2::InteractionRecord`, not among
the sources), an orbit number and a bunch crossing within the orbit. -/
structure InteractionRecord where
  bc : ℕ
  orbit : ℕ
  deriving DecidableEq

/-- Number of bunch crossings per orbit. -/
def LHCMaxBunches : ℤ := 3564

/-- Modelled from the spec: the time-reference as one count of bunch crossings. -/
def InteractionRecord.toLong (ir : InteractionRecord) : ℤ := ir.orbit * LHCMaxBunches + ir.bc

/-- Modelled from the spec: "the time difference between their time-references", in bunch
crossings (`differenceInBC`). -/
def InteractionRecord.differenceInBC (ir other : InteractionRecord) : ℤ :=
  let diffBC : ℤ := (ir.bc : ℤ) - other.bc
  if ir.orbit ≠ other.orbit then diffBC + ((ir.orbit : ℤ) - other.orbit) * LHCMaxBunches
  else diffBC

/-- Frame record `o2::mid::ROFRecord`: the time-reference and the index range
`[firstEntry, firstEntry + nEntries)` into the hit records of the batch. -/
structure ROFRecord where
  interactionRecord : InteractionRecord
  firstEntry : ℕ
  nEntries : ℕ

/-- End of the index range of a frame. -/
def ROFRecord.getEndIndex (rof : ROFRecord) : ℕ := rof.firstEntry + rof.nEntries

/-- Wrap-around of `uint32_t` arithmetic. -/
def u32 (n : ℕ) : ℕ := n % 2 ^ 32

/-- Function `countColumnDataHits(digit, id)`: the mask starts at 32768 and is shifted right
sixteen times; every position where `patterns[id] & mask` is non-zero counts one hit. -/
def countColumnDataHits (digit : ColumnData) (id : Fin 5) : ℕ :=
  let p : ℕ := (digit.patterns id).val
  if p ≠ 0 then
    ((List.range 16).foldl
      (fun (st : ℕ × ℕ) (_ : ℕ) =>
        ((if p &&& st.2 ≠ 0 then st.1 + 1 else st.1), st.2 >>> 1))
      (0, 32768)).1
  else 0

/-- Function `getBendingHits(digit)`: the hits of pattern indices 0, 1, 2, 3. -/
def getBendingHits (digit : ColumnData) : ℕ :=
  (List.finRange 4).foldl
    (fun nHits i => nHits + countColumnDataHits digit (Fin.castLE (by decide) i)) 0

/-- Function `getNonBendingHits(digit)`: the hits of pattern index 4. -/
def getNonBendingHits (digit : ColumnData) : ℕ := countColumnDataHits digit 4

/-- Function `getROFSize(rof, digits)`: bending and non-bending hits summed, in `uint32_t`,
over the records `digits[i]` for `firstEntry <= i < getEndIndex()`. An index outside the span
`digits` ends the program (`none`). -/
def getROFSize (rof : ROFRecord) (digits : List ColumnData) : Option (ℕ × ℕ) :=
  (List.range' rof.firstEntry (rof.getEndIndex - rof.firstEntry)).foldlM
    (fun (acc : ℕ × ℕ) (i : ℕ) =>
      match digits[i]? with
      | some digit => some (u32 (acc.1 + getBendingHits digit),
                            u32 (acc.2 + getNonBendingHits digit))
      | none => none)
    (0, 0)

/-- The fills made by the frame loop of `monitorData`: the arguments of
`mROFSizeB->Fill`, `mROFSizeNB->Fill` and `mROFTimeDiff->Fill`, in call order. -/
structure FrameFills where
  sizeB : List ℕ
  sizeNB : List ℕ
  timeDiff : List (ℤ × ℕ)

/-- The frame loop of `monitorData` from frame number `i` on, `prevSize` and `prevIr` being
the size and time-reference of the frame before. -/
def frameLoop (digits : List ColumnData) :
    List ROFRecord → ℕ → ℕ × ℕ → InteractionRecord → FrameFills → Option FrameFills
  | [], _, _, _, out => some out
  | rof :: rest, i, prevSize, prevIr, out =>
    match getROFSize rof digits with
    | none => none
    | some rofSize =>
      let out1 : FrameFills :=
        { out with sizeB := out.sizeB ++ [rofSize.1], sizeNB := out.sizeNB ++ [rofSize.2] }
      let out2 : FrameFills :=
        if i > 0 then
          let sizeTot := u32 (rofSize.1 + rofSize.2)
          let prevSizeTot := u32 (prevSize.1 + prevSize.2)
          let sizeMin := if sizeTot < prevSizeTot then sizeTot else prevSizeTot
          let timeDiff := rof.interactionRecord.differenceInBC prevIr
          { out1 with timeDiff := out1.timeDiff ++ [(timeDiff, sizeMin)] }
        else out1
      frameLoop digits rest (i + 1) rofSize rof.interactionRecord out2

/-- The frame loop of `monitorData` over the frames `rofs` of one batch. `prevSize` and
`prevIr` start default-constructed (zero sizes, the dummy time-reference) and are not read
before the first frame has overwritten them. -/
def monitorFrames (rofs : List ROFRecord) (digits : List ColumnData) : Option FrameFills :=
  frameLoop digits rofs 0 (0, 0) ⟨65535, 4294967295⟩ ⟨[], [], []⟩

/-! ### The board fan-out of `monitorData` -/

/-- The geometry lookups `o2::mid::detparams::getRPCLine`, `getChamber` and `isRightSide`,
which are not among the sources: taken as parameters. -/
structure DetParams where
  getRPCLine : ℤ → ℤ
  getChamber : ℤ → ℤ
  isRightSide : ℤ → Bool

/-- The board-occupancy histogram `mLocalBoardsMap` as created by `initialize`:
`TH2F("LocalBoardsMap", ..., 14, -7, 7, 36, 0, 9)`. -/
def mLocalBoardsMap : TH2F := TH2F.new 14 (-7) 7 36 0 9

/-- Number of boards `nBoard` chosen in `monitorData` for a chamber-0 hit. -/
def nBoard (rpcLine colId : ℤ) : ℕ :=
  if rpcLine = 0 ∨ rpcLine = 8 ∨ colId = 6 then 4
  else if (rpcLine = 3 ∨ rpcLine = 5) ∧ colId = 0 then 1
  else if (rpcLine = 3 ∨ rpcLine = 4 ∨ rpcLine = 5) ∧ (colId = 1 ∨ colId = 2) then 1
  else 2

/-- The y coordinate `linepos` filled for pattern index `i` and board index `board`
(the decimal constants of the source are taken exactly). -/
def linepos (rpcLine : ℤ) (nBoard i board : ℕ) : ℚ :=
  let start : ℚ × ℕ := if nBoard = 2 ∧ i = 1 then ((rpcLine : ℚ) + 1 / 2, 0) else ((rpcLine : ℚ), i)
  start.1 + 1 / 100 + (1 / 4) * (board : ℚ) + (1 / 4) * (start.2 : ℚ)

/-- The x coordinate filled for a hit: `colId + 0.5` on the right side, `-colId - 0.5` on
the other side. -/
def colpos (colId : ℤ) (isRightSide : Bool) : ℚ :=
  if isRightSide then (colId : ℚ) + 1 / 2 else -(colId : ℚ) - 1 / 2

/-- The points `(x, y)` passed to `mLocalBoardsMap->Fill(x, y, 1)` for one non-zero bending
pattern `i` of a chamber-0 hit: the loop `for (board = 0; board < nBoard; board++)`. -/
def boardFills (rpcLine colId : ℤ) (isRightSide : Bool) (i : ℕ) : List (ℚ × ℚ) :=
  (List.range (nBoard rpcLine colId)).map
    (fun board => (colpos colId isRightSide, linepos rpcLine (nBoard rpcLine colId) i board))

/-- The points filled into `mLocalBoardsMap` for one hit record: the loop over the pattern
indices `i = 0..3`, skipping zero patterns and hits outside chamber 0. -/
def digitBoardFills (G : DetParams) (digit : ColumnData) : List (ℚ × ℚ) :=
  let deIndex : ℤ := digit.deId
  let colId : ℤ := digit.columnId
  let rpcLine := G.getRPCLine deIndex
  let ichamber := G.getChamber deIndex
  let isRightSide := G.isRightSide deIndex
  (List.finRange 4).foldl
    (fun fills i =>
      if (digit.patterns (Fin.castLE (by decide) i)).val ≠ 0 then
        if ichamber = 0 then fills ++ boardFills rpcLine colId isRightSide i.val
        else fills
      else fills)
    []

/-- The board-occupancy bin `(binx, biny)` receiving a filled point. -/
def boardBin (pt : ℚ × ℚ) : ℕ × ℕ :=
  (mLocalBoardsMap.xaxis.FindBin pt.1, mLocalBoardsMap.yaxis.FindBin pt.2)

/-- A bin pair inside the range of the board-occupancy histogram. -/
def boardBinInRange (b : ℕ × ℕ) : Prop :=
  mLocalBoardsMap.xaxis.inRange b.1 ∧ mLocalBoardsMap.yaxis.inRange b.2

instance (b : ℕ × ℕ) : Decidable (boardBinInRange b) := by
  unfold boardBinInRange; infer_instance

/-- The hit records of a frame: the records of the batch in the index range of the frame. -/
def frameRecords (digits : List ColumnData) (rof : ROFRecord) : List ColumnData :=
  (digits.drop rof.firstEntry).take rof.nEntries

/-- Total hit count of a frame as the claim words it: the bending plus the non-bending
hits of the records of the frame (a number, with no wrap-around). -/
def frameHits (digits : List ColumnData) (rof : ROFRecord) : ℕ :=
  ((frameRecords digits rof).map getBendingHits).sum +
    ((frameRecords digits rof).map getNonBendingHits).sum

/-! ## Sample inputs -/

namespace Sample

open MergeableTH2Ratio

/-- Accumulator of shape (5,0,5,5,0,5), numerator filled with 10 and denominator with 2
at the point (1,1). -/
def accA (R : Rounding) : MergeableTH2Ratio :=
  applyFills R (MergeableTH2Ratio.new R 5 0 5 5 0 5 1) [.num 1 1 10, .den 1 1 2]

/-- Accumulator of shape (5,0,5,5,0,5), numerator filled with 5 and denominator with 3
at the point (1,1). -/
def accB (R : Rounding) : MergeableTH2Ratio :=
  applyFills R (MergeableTH2Ratio.new R 5 0 5 5 0 5 1) [.num 1 1 5, .den 1 1 3]

/-- An empty accumulator with four bins along x instead of five. -/
def accNarrow (R : Rounding) : MergeableTH2Ratio := MergeableTH2Ratio.new R 4 0 5 5 0 5 1

/-- Accumulator like `accA` with a scaling factor different from one. -/
def accScaled (R : Rounding) : MergeableTH2Ratio :=
  applyFills R (MergeableTH2Ratio.new R 5 0 5 5 0 5 2) [.num 1 1 10, .den 1 1 2]

/-- Accumulator of shape (5,0,5,5,0,5) whose numerator received one fill of weight
`2 ^ 24 = 16777216` at the point (1,1). -/
def accBig (R : Rounding) : MergeableTH2Ratio :=
  applyFills R (MergeableTH2Ratio.new R 5 0 5 5 0 5 1) [.num 1 1 16777216]

/-- Accumulator of shape (5,0,5,5,0,5) whose numerator received one fill of weight `1`
at the point (1,1). -/
def accOne (R : Rounding) : MergeableTH2Ratio :=
  applyFills R (MergeableTH2Ratio.new R 5 0 5 5 0 5 1) [.num 1 1 1]

/-- The geometry lookups with nine lines per chamber and 36 detection elements per side. -/
def detparams : DetParams :=
  ⟨fun deId => deId % 9, fun deId => (deId % 36) / 9, fun deId => deId / 36 == 0⟩

/-- A hit on detection element 0 (chamber 0, line 0, right side), column 0, with one strip
fired in the bending patterns 0 and 1. -/
def digitTwoPatterns : ColumnData := ⟨0, 0, fun k => if k.val < 2 then 1 else 0⟩

/-- A hit record with all sixteen strips fired in each of its five patterns. -/
def digitFull : ColumnData := ⟨0, 0, fun _ => 65535⟩

/-- A hit record with one strip fired in the bending pattern 0 and two strips fired in the
non-bending pattern. -/
def digitSmall : ColumnData := ⟨0, 0, fun k => if k.val = 0 then 1 else if k.val = 4 then 3 else 0⟩

/-- A hit record with ten strips fired: eight bending and two non-bending. -/
def digitTen : ColumnData := ⟨0, 0, fun k => if k.val = 0 then 255 else if k.val = 4 then 3 else 0⟩

/-- A hit record with four strips fired: three bending and one non-bending. -/
def digitFour : ColumnData := ⟨9, 2, fun k => if k.val = 1 then 7 else if k.val = 4 then 1 else 0⟩

/-- A batch of two frames of one record each, of sizes 10 and 4, whose time-references are
50 bunch crossings apart. -/
def twoFrames : List ROFRecord := [⟨⟨100, 7⟩, 0, 1⟩, ⟨⟨150, 7⟩, 1, 1⟩]

/-- A store holding the numerator and the denominator of `accA`. -/
def storeA : Store := [(accA Rounding.ieee).mHistoNum, (accA Rounding.ieee).mHistoDen]

/-- The object whose value is `accA`, pointing into `storeA`. -/
def objA : RatioObject := ⟨(accA Rounding.ieee).base, 0, 1, 1⟩

end Sample

/-! ## Properties -/

/-! ### Rounding lemmas -/

theorem roundHalfEven_intCast (z : ℤ) : roundHalfEven (z : ℚ) = z := by
  simp [roundHalfEven]

theorem roundHalfEven_tie_even (z : ℤ) (h : z % 2 = 0) :
    roundHalfEven ((z : ℚ) + 1 / 2) = z := by
  have hf : ⌊(z : ℚ) + 1 / 2⌋ = z := by
    rw [Int.floor_eq_iff]; constructor <;> norm_num
  simp only [roundHalfEven, hf]
  norm_num [h]

theorem log2_eq (r : ℚ) (e : ℤ) (h1 : (2 : ℚ) ^ e ≤ r) (h2 : r < (2 : ℚ) ^ (e + 1)) :
    Int.log 2 r = e := by
  have hr : 0 < r := lt_of_lt_of_le (by positivity) h1
  apply le_antisymm
  · have := (Int.lt_zpow_iff_log_lt (b := 2) (by norm_num) hr (x := e + 1)).1
      (by exact_mod_cast h2)
    omega
  · exact (Int.zpow_le_iff_le_log (b := 2) (by norm_num) hr).1 (by exact_mod_cast h1)

/-- A natural number below `2 ^ p` is representable with a `p`-bit significand. -/
theorem roundBinary_natCast (p n : ℕ) (hp : 0 < p) (hn : n < 2 ^ p) :
    roundBinary p (n : ℚ) = n := by
  rcases Nat.eq_zero_or_pos n with rfl | hpos
  · simp [roundBinary]
  have hne : (n : ℚ) ≠ 0 := by exact_mod_cast hpos.ne'
  have hlog : Int.log 2 |(n : ℚ)| = (Nat.log 2 n : ℤ) := by
    rw [abs_of_nonneg (by positivity)]
    exact Int.log_natCast 2 n
  have hle : Nat.log 2 n ≤ p - 1 := by
    have := Nat.log_lt_of_lt_pow hpos.ne' hn
    omega
  obtain ⟨k, hk⟩ : ∃ k : ℕ, (Nat.log 2 n : ℤ) - ((p : ℤ) - 1) = -(k : ℤ) :=
    ⟨p - 1 - Nat.log 2 n, by omega⟩
  simp only [roundBinary, hne, if_false, hlog, hk]
  have h2 : ((2 : ℚ) ^ (-(k : ℤ))) = 1 / (2 : ℚ) ^ k := by
    rw [zpow_neg, zpow_natCast]; simp
  rw [h2]
  have : (n : ℚ) / (1 / (2 : ℚ) ^ k) = ((n * 2 ^ k : ℕ) : ℤ) := by
    push_cast; field_simp
  rw [this, roundHalfEven_intCast]
  push_cast; field_simp

/-- The sum `2 ^ 24 + 1` is a tie between two `Float_t` values and rounds down to `2 ^ 24`. -/
theorem roundBinary_tie : roundBinary 24 16777217 = 16777216 := by
  have hlog : Int.log 2 |(16777217 : ℚ)| = 24 := by
    rw [abs_of_nonneg (by norm_num)]
    exact log2_eq _ _ (by norm_num) (by norm_num)
  have h : (16777217 : ℚ) / 2 = ((8388608 : ℤ) : ℚ) + 1 / 2 := by norm_num
  simp only [roundBinary, hlog]
  norm_num
  rw [h, roundHalfEven_tie_even _ (by decide)]
  norm_num

/-- The sum `2 ^ 24 + 2` is a `Float_t` value. -/
theorem roundBinary_even : roundBinary 24 16777218 = 16777218 := by
  have hlog : Int.log 2 |(16777218 : ℚ)| = 24 := by
    rw [abs_of_nonneg (by norm_num)]
    exact log2_eq _ _ (by norm_num) (by norm_num)
  have h : roundHalfEven (8388609 : ℚ) = 8388609 := by
    simpa using roundHalfEven_intCast 8388609
  simp only [roundBinary, hlog]
  norm_num
  rw [h]
  norm_num

/-! ### `MergeableTH2Ratio`: update and merge -/

theorem TH2F.Add_of_sameShape (R : Rounding) (h other : TH2F) (hs : h.sameShape other) :
    (h.Add R other).2 = ⟨h.xaxis, h.yaxis, fun i => R.toFloat (h.cells i + other.cells i)⟩ := by
  unfold TH2F.Add
  rw [if_pos hs]

theorem TH2F.Add_of_not_sameShape (R : Rounding) (h other : TH2F) (hs : ¬ h.sameShape other) :
    (h.Add R other).2 = h := by
  unfold TH2F.Add
  rw [if_neg hs]

namespace MergeableTH2Ratio

@[simp] theorem update_mHistoNum (R : Rounding) (m : MergeableTH2Ratio) :
    (update R m).mHistoNum = m.mHistoNum := rfl

@[simp] theorem update_mHistoDen (R : Rounding) (m : MergeableTH2Ratio) :
    (update R m).mHistoDen = m.mHistoDen := rfl

@[simp] theorem update_mScalingFactor (R : Rounding) (m : MergeableTH2Ratio) :
    (update R m).mScalingFactor = m.mScalingFactor := rfl

theorem update_base_xaxis (R : Rounding) (m : MergeableTH2Ratio) :
    (update R m).base.xaxis = m.mHistoNum.xaxis := by
  unfold update TH2F.Divide TH2F.Scale
  dsimp only
  split_ifs <;> rfl

theorem update_base_yaxis (R : Rounding) (m : MergeableTH2Ratio) :
    (update R m).base.yaxis = m.mHistoNum.yaxis := by
  unfold update TH2F.Divide TH2F.Scale
  dsimp only
  split_ifs <;> rfl

/-- Ratio bins after `update()` of a well-formed accumulator with scaling factor `1`. -/
theorem update_cells_one (R : Rounding) (m : MergeableTH2Ratio) (hwf : m.wellFormed)
    (hs : m.mScalingFactor = 1) (i : ℕ) :
    (update R m).base.cells i = quotient R (m.mHistoNum.cells i) (m.mHistoDen.cells i) := by
  have h0 : TH2F.sameShape ⟨m.mHistoNum.xaxis, m.mHistoNum.yaxis, fun _ => 0⟩ m.mHistoNum :=
    ⟨rfl, rfl⟩
  have hwf2 : m.mHistoNum.sameShape m.mHistoDen := hwf
  simp [update, TH2F.Divide, hs, h0, hwf2, quotient]

/-- Ratio bins after `update()` of a well-formed accumulator with another scaling factor. -/
theorem update_cells_ne_one (R : Rounding) (m : MergeableTH2Ratio) (hwf : m.wellFormed)
    (hs : m.mScalingFactor ≠ 1) (i : ℕ) :
    (update R m).base.cells i =
      R.toFloat (R.toDouble
        (rescale R * quotient R (m.mHistoNum.cells i) (m.mHistoDen.cells i))) := by
  have h0 : TH2F.sameShape ⟨m.mHistoNum.xaxis, m.mHistoNum.yaxis, fun _ => 0⟩ m.mHistoNum :=
    ⟨rfl, rfl⟩
  have hwf2 : m.mHistoNum.sameShape m.mHistoDen := hwf
  simp [update, TH2F.Divide, TH2F.Scale, hs, h0, hwf2, quotient, rescale]

theorem merge_mHistoNum (R : Rounding) (a b : MergeableTH2Ratio)
    (h : a.mHistoNum.sameShape b.mHistoNum) :
    (merge R a b).mHistoNum = ⟨a.mHistoNum.xaxis, a.mHistoNum.yaxis,
      fun i => R.toFloat (a.mHistoNum.cells i + b.mHistoNum.cells i)⟩ := by
  show (a.mHistoNum.Add R b.mHistoNum).2 = _
  exact TH2F.Add_of_sameShape R _ _ h

theorem merge_mHistoDen (R : Rounding) (a b : MergeableTH2Ratio)
    (h : a.mHistoDen.sameShape b.mHistoDen) :
    (merge R a b).mHistoDen = ⟨a.mHistoDen.xaxis, a.mHistoDen.yaxis,
      fun i => R.toFloat (a.mHistoDen.cells i + b.mHistoDen.cells i)⟩ := by
  show (a.mHistoDen.Add R b.mHistoDen).2 = _
  exact TH2F.Add_of_sameShape R _ _ h

theorem merge_base_xaxis (R : Rounding) (a b : MergeableTH2Ratio) :
    (merge R a b).base.xaxis = (merge R a b).mHistoNum.xaxis :=
  update_base_xaxis R _

theorem merge_base_yaxis (R : Rounding) (a b : MergeableTH2Ratio) :
    (merge R a b).base.yaxis = (merge R a b).mHistoNum.yaxis :=
  update_base_yaxis R _

@[simp] theorem merge_mScalingFactor (R : Rounding) (a b : MergeableTH2Ratio) :
    (merge R a b).mScalingFactor = a.mScalingFactor := rfl

theorem merge_wellFormed (R : Rounding) (a b : MergeableTH2Ratio) (ha : a.wellFormed)
    (h : a.sameShape b) : (merge R a b).wellFormed := by
  obtain ⟨h1, h2⟩ := h
  unfold wellFormed
  rw [merge_mHistoNum R a b h1, merge_mHistoDen R a b h2]
  exact ha

theorem merge_sameShape (R : Rounding) (a b : MergeableTH2Ratio) (h : a.sameShape b) :
    (merge R a b).sameShape a := by
  obtain ⟨h1, h2⟩ := h
  unfold sameShape
  rw [merge_mHistoNum R a b h1, merge_mHistoDen R a b h2]
  exact ⟨⟨rfl, rfl⟩, ⟨rfl, rfl⟩⟩

end MergeableTH2Ratio

/-! ### Sample inputs: shapes and bins -/

namespace Sample

open MergeableTH2Ratio

theorem findBin_one_one (h : TH2F) (hx : h.xaxis = ⟨5, 0, 5⟩) (hy : h.yaxis = ⟨5, 0, 5⟩) :
    h.FindBin 1 1 = 16 := by
  norm_num [TH2F.FindBin, TH2F.GetBin, Axis.FindBin, hx, hy]

theorem accA_wellFormed (R : Rounding) : (accA R).wellFormed := by
  simp [accA, applyFills, applyFill, wellFormed, TH2F.sameShape, TH2F.Fill, getNum, getDen,
    MergeableTH2Ratio.new, TH2F.new]

end Sample

/-! ### Claims on `update()` and `merge()` -/

namespace MergeableTH2Ratio

theorem ieee_toFloat_natCast (n : ℕ) (hn : n < 2 ^ 24) : Rounding.ieee.toFloat (n : ℚ) = n :=
  roundBinary_natCast 24 n (by norm_num) hn

theorem ieee_toDouble_natCast (n : ℕ) (hn : n < 2 ^ 53) : Rounding.ieee.toDouble (n : ℚ) = n :=
  roundBinary_natCast 53 n (by norm_num) hn

/-- Claim C4. `update()` is idempotent: a second call with no fill or merge in between
leaves the whole object, and so the ratio grid, as the first call left it, and neither
call changes the numerator, the denominator or the scaling factor. -/
theorem update_idempotent (R : Rounding) (m : MergeableTH2Ratio) :
    update R (update R m) = update R m ∧
    (update R (update R m)).base.cells = (update R m).base.cells ∧
    (update R m).mHistoNum = m.mHistoNum ∧ (update R m).mHistoDen = m.mHistoDen ∧
    (update R m).mScalingFactor = m.mScalingFactor ∧
    (update R (update R m)).mHistoNum = m.mHistoNum ∧
    (update R (update R m)).mHistoDen = m.mHistoDen ∧
    (update R (update R m)).mScalingFactor = m.mScalingFactor :=
  ⟨rfl, rfl, rfl, rfl, rfl, rfl, rfl, rfl⟩

/-- Claim C6. `update()` rescales conditionally and by a fixed constant: with scaling
factor `1` every ratio bin is the quotient numerator / denominator (`0` where the
denominator bin is zero); with any other scaling factor it is that quotient multiplied by
`1. / sOrbitLengthInMilliseconds`, a constant that does not depend on the scaling factor
and whose exact value is `1000000 / (3564 * 25) = 1 / 0.0891`. -/
theorem update_rescale (R : Rounding) (m : MergeableTH2Ratio) (hwf : m.wellFormed) (i : ℕ) :
    (m.mScalingFactor = 1 →
      (update R m).base.cells i = quotient R (m.mHistoNum.cells i) (m.mHistoDen.cells i)) ∧
    (m.mScalingFactor ≠ 1 →
      (update R m).base.cells i = R.toFloat (R.toDouble
        (rescale R * quotient R (m.mHistoNum.cells i) (m.mHistoDen.cells i)))) ∧
    (m.mScalingFactor ≠ 1 →
      (update Rounding.exact m).base.cells i =
        (1000000 / (3564 * 25)) *
          (if m.mHistoDen.cells i ≠ 0 then m.mHistoNum.cells i / m.mHistoDen.cells i else 0)) ∧
    rescale Rounding.exact = 1000000 / (3564 * 25) ∧
    rescale Rounding.exact = 1 / 0.0891 := by
  have hc : rescale Rounding.exact = 1000000 / (3564 * 25) := by
    norm_num [rescale, sOrbitLengthInMilliseconds, sOrbitLengthInMicroseconds,
      sOrbitLengthInNanoseconds, Rounding.exact]
  refine ⟨fun hs => update_cells_one R m hwf hs i, fun hs => update_cells_ne_one R m hwf hs i,
    fun hs => ?_, hc, ?_⟩
  · rw [update_cells_ne_one Rounding.exact m hwf hs i, hc]
    simp [quotient, Rounding.exact]
  · rw [hc]; norm_num

end MergeableTH2Ratio

namespace Sample

open MergeableTH2Ratio

theorem accScaled_wellFormed (R : Rounding) : (accScaled R).wellFormed := by
  simp [accScaled, applyFills, applyFill, wellFormed, TH2F.sameShape, TH2F.Fill, getNum, getDen,
    MergeableTH2Ratio.new, TH2F.new]

theorem accB_wellFormed (R : Rounding) : (accB R).wellFormed := by
  simp [accB, applyFills, applyFill, wellFormed, TH2F.sameShape, TH2F.Fill, getNum, getDen,
    MergeableTH2Ratio.new, TH2F.new]

theorem accNarrow_wellFormed (R : Rounding) : (accNarrow R).wellFormed := by
  simp [accNarrow, wellFormed, TH2F.sameShape, MergeableTH2Ratio.new, TH2F.new]

theorem accA_sameShape_accB (R : Rounding) : (accA R).sameShape (accB R) := by
  simp [accA, accB, applyFills, applyFill, MergeableTH2Ratio.sameShape, TH2F.sameShape,
    TH2F.Fill, getNum, getDen, MergeableTH2Ratio.new, TH2F.new]

theorem accA_not_sameShape_accNarrow (R : Rounding) :
    ¬ (accA R).mHistoNum.sameShape (accNarrow R).mHistoNum := by
  simp [accA, accNarrow, applyFills, applyFill, TH2F.sameShape,
    TH2F.Fill, getNum, getDen, MergeableTH2Ratio.new, TH2F.new]

theorem accA_base_cells (R : Rounding) (i : ℕ) : (accA R).base.cells i = 0 := by
  have h : (accA R).base = (MergeableTH2Ratio.new R 5 0 5 5 0 5 1).base := rfl
  rw [h]
  have hwf : MergeableTH2Ratio.wellFormed ⟨TH2F.new 5 0 5 5 0 5, TH2F.new 5 0 5 5 0 5,
      TH2F.new 5 0 5 5 0 5, 1⟩ := ⟨rfl, rfl⟩
  unfold MergeableTH2Ratio.new
  rw [update_cells_one R _ hwf rfl i]
  simp [quotient, TH2F.new]

theorem accA_num (R : Rounding) :
    (accA R).mHistoNum.cells 16 = R.toFloat (0 + R.toFloat 10) := by
  have hb : (TH2F.new 5 0 5 5 0 5).FindBin 1 1 = 16 := findBin_one_one _ rfl rfl
  simp [accA, applyFills, applyFill, TH2F.Fill, getNum, getDen, MergeableTH2Ratio.new, hb]
  simp [TH2F.new]

theorem accA_den (R : Rounding) :
    (accA R).mHistoDen.cells 16 = R.toFloat (0 + R.toFloat 2) := by
  have hb : (TH2F.new 5 0 5 5 0 5).FindBin 1 1 = 16 := findBin_one_one _ rfl rfl
  simp [accA, applyFills, applyFill, TH2F.Fill, getNum, getDen, MergeableTH2Ratio.new, hb]
  simp [TH2F.new]

theorem accB_num (R : Rounding) :
    (accB R).mHistoNum.cells 16 = R.toFloat (0 + R.toFloat 5) := by
  have hb : (TH2F.new 5 0 5 5 0 5).FindBin 1 1 = 16 := findBin_one_one _ rfl rfl
  simp [accB, applyFills, applyFill, TH2F.Fill, getNum, getDen, MergeableTH2Ratio.new, hb]
  simp [TH2F.new]

theorem accB_den (R : Rounding) :
    (accB R).mHistoDen.cells 16 = R.toFloat (0 + R.toFloat 3) := by
  have hb : (TH2F.new 5 0 5 5 0 5).FindBin 1 1 = 16 := findBin_one_one _ rfl rfl
  simp [accB, applyFills, applyFill, TH2F.Fill, getNum, getDen, MergeableTH2Ratio.new, hb]
  simp [TH2F.new]

theorem ieee_toFloat_ofNat (n : ℕ) [n.AtLeastTwo] (hn : n < 2 ^ 24) :
    Rounding.ieee.toFloat (OfNat.ofNat n : ℚ) = OfNat.ofNat n := by
  have := ieee_toFloat_natCast n hn
  simpa using this

theorem ieee_toDouble_ofNat (n : ℕ) [n.AtLeastTwo] (hn : n < 2 ^ 53) :
    Rounding.ieee.toDouble (OfNat.ofNat n : ℚ) = OfNat.ofNat n := by
  have := ieee_toDouble_natCast n hn
  simpa using this

end Sample

namespace MergeableTH2Ratio

open Sample

/-- Witness of `update_rescale` on a filled accumulator with scaling factor `2`. -/
theorem update_rescale_witness :
    (accScaled Rounding.ieee).wellFormed ∧
    ((accScaled Rounding.ieee).mScalingFactor ≠ 1 →
      (update Rounding.ieee (accScaled Rounding.ieee)).base.cells 16 =
        Rounding.ieee.toFloat (Rounding.ieee.toDouble (rescale Rounding.ieee *
          quotient Rounding.ieee ((accScaled Rounding.ieee).mHistoNum.cells 16)
            ((accScaled Rounding.ieee).mHistoDen.cells 16)))) :=
  ⟨accScaled_wellFormed _,
    (update_rescale Rounding.ieee (accScaled Rounding.ieee) (accScaled_wellFormed _) 16).2.1⟩

/-- Claim C2. After `A.merge(B)` and `A.update()` with scaling factor `1`, every ratio bin
holds (A.num + B.num) / (A.den + B.den) where the summed denominator bin is non-zero and
exactly `0` where it is zero; with A filled 10 over 2 and B filled 5 over 3 at (1,1) of a
(5,0,5,5,0,5) grid the ratio bin at (1,1) is `3`, in IEEE arithmetic. -/
theorem merge_update_ratio :
    (∀ (R : Rounding) (A B : MergeableTH2Ratio), A.wellFormed → A.sameShape B →
      A.mScalingFactor = 1 → ∀ i : ℕ,
      (update R (merge R A B)).base.cells i =
        if R.toFloat (A.mHistoDen.cells i + B.mHistoDen.cells i) ≠ 0 then
          R.toFloat (R.toDouble (R.toFloat (A.mHistoNum.cells i + B.mHistoNum.cells i) /
            R.toFloat (A.mHistoDen.cells i + B.mHistoDen.cells i)))
        else 0) ∧
    (update Rounding.ieee (merge Rounding.ieee (accA Rounding.ieee) (accB Rounding.ieee))
      ).base.GetBinContent
        ((merge Rounding.ieee (accA Rounding.ieee) (accB Rounding.ieee)).base.FindBin 1 1)
      = 3 := by
  have key : ∀ (R : Rounding) (A B : MergeableTH2Ratio), A.wellFormed → A.sameShape B →
      A.mScalingFactor = 1 → ∀ i : ℕ,
      (update R (merge R A B)).base.cells i =
        if R.toFloat (A.mHistoDen.cells i + B.mHistoDen.cells i) ≠ 0 then
          R.toFloat (R.toDouble (R.toFloat (A.mHistoNum.cells i + B.mHistoNum.cells i) /
            R.toFloat (A.mHistoDen.cells i + B.mHistoDen.cells i)))
        else 0 := by
    intro R A B hA hAB hs i
    rw [update_cells_one R _ (merge_wellFormed R A B hA hAB) hs i,
      merge_mHistoNum R A B hAB.1, merge_mHistoDen R A B hAB.2]
    rfl
  refine ⟨key, ?_⟩
  have hx : (merge Rounding.ieee (accA Rounding.ieee) (accB Rounding.ieee)).base.xaxis
      = ⟨5, 0, 5⟩ := by
    rw [merge_base_xaxis, merge_mHistoNum _ _ _ (accA_sameShape_accB _).1]; rfl
  have hy : (merge Rounding.ieee (accA Rounding.ieee) (accB Rounding.ieee)).base.yaxis
      = ⟨5, 0, 5⟩ := by
    rw [merge_base_yaxis, merge_mHistoNum _ _ _ (accA_sameShape_accB _).1]; rfl
  rw [findBin_one_one _ hx hy]
  show (update _ (merge _ _ _)).base.cells 16 = 3
  rw [key _ _ _ (accA_wellFormed _) (accA_sameShape_accB _) rfl 16,
    accA_num, accA_den, accB_num, accB_den]
  have f10 := ieee_toFloat_ofNat 10 (by norm_num)
  have f2 := ieee_toFloat_ofNat 2 (by norm_num)
  have f5 := ieee_toFloat_ofNat 5 (by norm_num)
  have f3 := ieee_toFloat_ofNat 3 (by norm_num)
  have f15 := ieee_toFloat_ofNat 15 (by norm_num)
  have d3 := ieee_toDouble_ofNat 3 (by norm_num)
  simp only [zero_add, f10, f2, f5, f3]
  norm_num
  rw [f15, f5]
  norm_num
  rw [d3, f3]

/-- Witness of `merge_update_ratio` on the two sample accumulators. -/
theorem merge_update_ratio_witness :
    (update Rounding.ieee (merge Rounding.ieee (accA Rounding.ieee) (accB Rounding.ieee))
      ).base.cells 16 =
      if Rounding.ieee.toFloat ((accA Rounding.ieee).mHistoDen.cells 16 +
          (accB Rounding.ieee).mHistoDen.cells 16) ≠ 0 then
        Rounding.ieee.toFloat (Rounding.ieee.toDouble
          (Rounding.ieee.toFloat ((accA Rounding.ieee).mHistoNum.cells 16 +
              (accB Rounding.ieee).mHistoNum.cells 16) /
            Rounding.ieee.toFloat ((accA Rounding.ieee).mHistoDen.cells 16 +
              (accB Rounding.ieee).mHistoDen.cells 16)))
      else 0 :=
  merge_update_ratio.1 Rounding.ieee (accA Rounding.ieee) (accB Rounding.ieee)
    (accA_wellFormed _) (accA_sameShape_accB _) rfl 16

end MergeableTH2Ratio

namespace MergeableTH2Ratio

open Sample

/-- Counterexample to claim C3. Merging the four-column accumulator `accNarrow` into the
filled five-column accumulator `accA` returns normally (`merge` has no failure result) and
recomputes the ratio grid: the bin at (1,1) held `0` before the call and holds `5` after. -/
theorem merge_mismatch_recomputes_ratio :
    (accA Rounding.ieee).wellFormed ∧ (accNarrow Rounding.ieee).wellFormed ∧
    ¬ (accA Rounding.ieee).mHistoNum.sameShape (accNarrow Rounding.ieee).mHistoNum ∧
    (accA Rounding.ieee).base.cells 16 = 0 ∧
    (merge Rounding.ieee (accA Rounding.ieee) (accNarrow Rounding.ieee)).base.cells 16 = 5 ∧
    (merge Rounding.ieee (accA Rounding.ieee) (accNarrow Rounding.ieee)).base.cells 16 ≠
      (accA Rounding.ieee).base.cells 16 := by
  have hne := accA_not_sameShape_accNarrow Rounding.ieee
  have hne2 : ¬ (accA Rounding.ieee).mHistoDen.sameShape (accNarrow Rounding.ieee).mHistoDen := by
    simp [accA, accNarrow, applyFills, applyFill, TH2F.sameShape,
      TH2F.Fill, getNum, getDen, MergeableTH2Ratio.new, TH2F.new]
  have hm : merge Rounding.ieee (accA Rounding.ieee) (accNarrow Rounding.ieee)
      = update Rounding.ieee (accA Rounding.ieee) := by
    unfold merge
    rw [show (accNarrow Rounding.ieee).getNum = (accNarrow Rounding.ieee).mHistoNum from rfl,
      show (accNarrow Rounding.ieee).getDen = (accNarrow Rounding.ieee).mHistoDen from rfl,
      TH2F.Add_of_not_sameShape _ _ _ hne, TH2F.Add_of_not_sameShape _ _ _ hne2]
  have h5 : (merge Rounding.ieee (accA Rounding.ieee) (accNarrow Rounding.ieee)).base.cells 16
      = 5 := by
    rw [hm, update_cells_one _ _ (accA_wellFormed _) rfl 16, accA_num, accA_den]
    have f10 := ieee_toFloat_ofNat 10 (by norm_num)
    have f2 := ieee_toFloat_ofNat 2 (by norm_num)
    have f5 := ieee_toFloat_ofNat 5 (by norm_num)
    have d5 := ieee_toDouble_ofNat 5 (by norm_num)
    simp only [zero_add, f10, f2, quotient]
    norm_num
    rw [d5, f5]
  refine ⟨accA_wellFormed _, accNarrow_wellFormed _, hne, accA_base_cells _ 16, h5, ?_⟩
  rw [h5, accA_base_cells]
  norm_num

/-- Claim C3, amended. When the shape of `other` differs from the shape of the accumulator,
`merge(other)` leaves the numerator and the denominator exactly as they were, and its whole
effect is that of `update()`: the ratio grid is recomputed from the unchanged numerator
and denominator. -/
theorem merge_mismatch (R : Rounding) (A B : MergeableTH2Ratio) (hA : A.wellFormed)
    (hB : B.wellFormed) (hne : ¬ A.mHistoNum.sameShape B.mHistoNum) :
    merge R A B = update R A ∧
    (merge R A B).mHistoNum = A.mHistoNum ∧ (merge R A B).mHistoDen = A.mHistoDen := by
  have hne2 : ¬ A.mHistoDen.sameShape B.mHistoDen := by
    intro h
    apply hne
    have hA2 : A.mHistoNum.sameShape A.mHistoDen := hA
    have hB2 : B.mHistoNum.sameShape B.mHistoDen := hB
    exact ⟨hA2.1.trans (h.1.trans hB2.1.symm), hA2.2.trans (h.2.trans hB2.2.symm)⟩
  have hm : merge R A B = update R A := by
    unfold merge
    rw [show B.getNum = B.mHistoNum from rfl, show B.getDen = B.mHistoDen from rfl,
      TH2F.Add_of_not_sameShape _ _ _ hne, TH2F.Add_of_not_sameShape _ _ _ hne2]
  exact ⟨hm, by rw [hm]; rfl, by rw [hm]; rfl⟩

/-- Witness of `merge_mismatch` on the sample accumulators of different shape. -/
theorem merge_mismatch_witness :
    merge Rounding.ieee (accA Rounding.ieee) (accNarrow Rounding.ieee)
      = update Rounding.ieee (accA Rounding.ieee) ∧
    (merge Rounding.ieee (accA Rounding.ieee) (accNarrow Rounding.ieee)).mHistoNum
      = (accA Rounding.ieee).mHistoNum ∧
    (merge Rounding.ieee (accA Rounding.ieee) (accNarrow Rounding.ieee)).mHistoDen
      = (accA Rounding.ieee).mHistoDen :=
  merge_mismatch Rounding.ieee (accA Rounding.ieee) (accNarrow Rounding.ieee)
    (accA_wellFormed _) (accNarrow_wellFormed _) (accA_not_sameShape_accNarrow _)

end MergeableTH2Ratio

/-! ### Raw fills and merging -/

namespace MergeableTH2Ratio

theorem sameShape_refl (m : MergeableTH2Ratio) : m.sameShape m := ⟨⟨rfl, rfl⟩, ⟨rfl, rfl⟩⟩

theorem sameShape_symm {a b : MergeableTH2Ratio} (h : a.sameShape b) : b.sameShape a :=
  ⟨⟨h.1.1.symm, h.1.2.symm⟩, ⟨h.2.1.symm, h.2.2.symm⟩⟩

theorem sameShape_trans {a b c : MergeableTH2Ratio} (h : a.sameShape b) (g : b.sameShape c) :
    a.sameShape c :=
  ⟨⟨h.1.1.trans g.1.1, h.1.2.trans g.1.2⟩, ⟨h.2.1.trans g.2.1, h.2.2.trans g.2.2⟩⟩

theorem applyFill_sameShape (R : Rounding) (m : MergeableTH2Ratio) (op : FillOp) :
    (applyFill R m op).sameShape m := by
  cases op <;> exact ⟨⟨rfl, rfl⟩, ⟨rfl, rfl⟩⟩

theorem applyFills_sameShape (R : Rounding) (ops : List FillOp) (m : MergeableTH2Ratio) :
    (applyFills R m ops).sameShape m := by
  induction ops generalizing m with
  | nil => exact sameShape_refl m
  | cons op ops ih =>
    exact sameShape_trans (ih (applyFill R m op)) (applyFill_sameShape R m op)

theorem findBin_congr {h g : TH2F} (hs : h.sameShape g) (x y : ℚ) :
    h.FindBin x y = g.FindBin x y := by
  unfold TH2F.FindBin TH2F.GetBin
  rw [hs.1, hs.2]

/-- In exact arithmetic one fill adds the same amount to every bin whatever the bins held. -/
theorem applyFill_increment (R : Rounding) (hR : ∀ q, R.toFloat q = q)
    (m n : MergeableTH2Ratio) (h : m.sameShape n) (op : FillOp) (i : ℕ) :
    (applyFill R m op).mHistoNum.cells i - m.mHistoNum.cells i =
        (applyFill R n op).mHistoNum.cells i - n.mHistoNum.cells i ∧
    (applyFill R m op).mHistoDen.cells i - m.mHistoDen.cells i =
        (applyFill R n op).mHistoDen.cells i - n.mHistoDen.cells i := by
  cases op with
  | num x y w =>
    have hb : m.mHistoNum.FindBin x y = n.mHistoNum.FindBin x y := findBin_congr h.1 x y
    simp only [applyFill, TH2F.Fill, getNum, hR, hb, Function.update_apply, sub_self, and_true]
    split_ifs with hi
    · subst hi; ring
    · ring
  | den x y w =>
    have hb : m.mHistoDen.FindBin x y = n.mHistoDen.FindBin x y := findBin_congr h.2 x y
    simp only [applyFill, TH2F.Fill, getDen, hR, hb, Function.update_apply, sub_self, true_and]
    split_ifs with hi
    · subst hi; ring
    · ring

/-- In exact arithmetic a sequence of fills adds the same amounts whatever the bins held. -/
theorem applyFills_increment (R : Rounding) (hR : ∀ q, R.toFloat q = q) (ops : List FillOp)
    (m n : MergeableTH2Ratio) (h : m.sameShape n) (i : ℕ) :
    (applyFills R m ops).mHistoNum.cells i - m.mHistoNum.cells i =
        (applyFills R n ops).mHistoNum.cells i - n.mHistoNum.cells i ∧
    (applyFills R m ops).mHistoDen.cells i - m.mHistoDen.cells i =
        (applyFills R n ops).mHistoDen.cells i - n.mHistoDen.cells i := by
  induction ops generalizing m n with
  | nil => simp [applyFills]
  | cons op ops ih =>
    have hs : (applyFill R m op).sameShape (applyFill R n op) :=
      sameShape_trans (applyFill_sameShape R m op)
        (sameShape_trans h (sameShape_symm (applyFill_sameShape R n op)))
    have h1 := ih (applyFill R m op) (applyFill R n op) hs
    have h2 := applyFill_increment R hR m n h op i
    have e : ∀ k : MergeableTH2Ratio,
        applyFills R k (op :: ops) = applyFills R (applyFill R k op) ops := fun _ => rfl
    rw [e m, e n]
    constructor
    · linarith [h1.1, h2.1]
    · linarith [h1.2, h2.2]

theorem applyFills_append (R : Rounding) (m : MergeableTH2Ratio) (xs ys : List FillOp) :
    applyFills R m (xs ++ ys) = applyFills R (applyFills R m xs) ys := by
  simp [applyFills, List.foldl_append]

end MergeableTH2Ratio

namespace Sample

open MergeableTH2Ratio

theorem roundBinary_pow24 : roundBinary 24 16777216 = 16777216 := by
  have hlog : Int.log 2 |(16777216 : ℚ)| = 24 := by
    rw [abs_of_nonneg (by norm_num)]
    exact log2_eq _ _ (by norm_num) (by norm_num)
  have h : roundHalfEven (8388608 : ℚ) = 8388608 := by
    simpa using roundHalfEven_intCast 8388608
  simp only [roundBinary, hlog]
  norm_num
  rw [h]
  norm_num

theorem accBig_num : (accBig Rounding.ieee).mHistoNum.cells 16 = 16777216 := by
  have hb : (TH2F.new 5 0 5 5 0 5).FindBin 1 1 = 16 := findBin_one_one _ rfl rfl
  have h : (accBig Rounding.ieee).mHistoNum.cells 16
      = Rounding.ieee.toFloat (0 + Rounding.ieee.toFloat 16777216) := by
    simp [accBig, applyFills, applyFill, TH2F.Fill, getNum, MergeableTH2Ratio.new, hb]
    simp [TH2F.new]
  rw [h]
  have e : Rounding.ieee.toFloat 16777216 = 16777216 := roundBinary_pow24
  rw [e, zero_add, e]

theorem accOne_num : (accOne Rounding.ieee).mHistoNum.cells 16 = 1 := by
  have hb : (TH2F.new 5 0 5 5 0 5).FindBin 1 1 = 16 := findBin_one_one _ rfl rfl
  have h : (accOne Rounding.ieee).mHistoNum.cells 16
      = Rounding.ieee.toFloat (0 + Rounding.ieee.toFloat 1) := by
    simp [accOne, applyFills, applyFill, TH2F.Fill, getNum, MergeableTH2Ratio.new, hb]
    simp [TH2F.new]
  rw [h]
  have e : Rounding.ieee.toFloat 1 = 1 := by
    simpa using ieee_toFloat_natCast 1 (by norm_num)
  rw [e, zero_add, e]

theorem accBig_sameShape_accOne : (accBig Rounding.ieee).sameShape (accOne Rounding.ieee) :=
  sameShape_trans (applyFills_sameShape _ _ _) (sameShape_symm (applyFills_sameShape _ _ _))

end Sample

namespace MergeableTH2Ratio

open Sample

/-- Counterexample to claim C1. Three accumulators of one shape whose numerator bin at (1,1)
holds `2 ^ 24`, `1` and `1`: merged as (A + B) + C the bin holds `16777216`, merged as
A + (B + C) it holds `16777218`, so the grouping changes the `Float_t` bin contents. -/
theorem merge_grouping_differs :
    (accBig Rounding.ieee).sameShape (accOne Rounding.ieee) ∧
    (merge Rounding.ieee (merge Rounding.ieee (accBig Rounding.ieee) (accOne Rounding.ieee))
      (accOne Rounding.ieee)).mHistoNum.cells 16 = 16777216 ∧
    (merge Rounding.ieee (accBig Rounding.ieee)
      (merge Rounding.ieee (accOne Rounding.ieee) (accOne Rounding.ieee))).mHistoNum.cells 16
      = 16777218 := by
  have hs := accBig_sameShape_accOne
  have h11 : (accOne Rounding.ieee).sameShape (accOne Rounding.ieee) := sameShape_refl _
  have t1 : Rounding.ieee.toFloat 16777217 = 16777216 := roundBinary_tie
  have t2 : Rounding.ieee.toFloat 16777218 = 16777218 := roundBinary_even
  have t3 : Rounding.ieee.toFloat 2 = 2 := ieee_toFloat_ofNat 2 (by norm_num)
  refine ⟨hs, ?_, ?_⟩
  · have hs2 : (merge Rounding.ieee (accBig Rounding.ieee) (accOne Rounding.ieee)).sameShape
        (accOne Rounding.ieee) := sameShape_trans (merge_sameShape _ _ _ hs) hs
    rw [merge_mHistoNum _ _ _ hs2.1]
    simp only []
    rw [merge_mHistoNum _ _ _ hs.1]
    simp only [accBig_num, accOne_num]
    norm_num
    rw [t1]
    norm_num [t1]
  · have hs2 : (accBig Rounding.ieee).sameShape
        (merge Rounding.ieee (accOne Rounding.ieee) (accOne Rounding.ieee)) :=
      sameShape_trans hs (sameShape_symm (merge_sameShape _ _ _ h11))
    rw [merge_mHistoNum _ _ _ hs2.1]
    simp only []
    rw [merge_mHistoNum _ _ _ h11.1]
    simp only [accBig_num, accOne_num]
    norm_num
    rw [t3]
    norm_num
    exact t2

end MergeableTH2Ratio

namespace MergeableTH2Ratio

/-- Bin contents of two successive merges, in exact arithmetic. -/
theorem merge_merge_left (R : Rounding) (hR : ∀ q, R.toFloat q = q)
    (X Y Z : MergeableTH2Ratio) (hXY : X.sameShape Y) (hYZ : Y.sameShape Z) :
    (merge R (merge R X Y) Z).mHistoNum.cells =
        (fun i => X.mHistoNum.cells i + Y.mHistoNum.cells i + Z.mHistoNum.cells i) ∧
    (merge R (merge R X Y) Z).mHistoDen.cells =
        (fun i => X.mHistoDen.cells i + Y.mHistoDen.cells i + Z.mHistoDen.cells i) := by
  have hs : (merge R X Y).sameShape Z :=
    sameShape_trans (merge_sameShape R X Y hXY) (sameShape_trans hXY hYZ)
  rw [merge_mHistoNum R _ _ hs.1, merge_mHistoDen R _ _ hs.2,
    merge_mHistoNum R _ _ hXY.1, merge_mHistoDen R _ _ hXY.2]
  simp only [hR, and_self]

/-- Bin contents of a merge with an already merged operand, in exact arithmetic. -/
theorem merge_merge_right (R : Rounding) (hR : ∀ q, R.toFloat q = q)
    (X Y Z : MergeableTH2Ratio) (hXY : X.sameShape Y) (hYZ : Y.sameShape Z) :
    (merge R X (merge R Y Z)).mHistoNum.cells =
        (fun i => X.mHistoNum.cells i + Y.mHistoNum.cells i + Z.mHistoNum.cells i) ∧
    (merge R X (merge R Y Z)).mHistoDen.cells =
        (fun i => X.mHistoDen.cells i + Y.mHistoDen.cells i + Z.mHistoDen.cells i) := by
  have hs : X.sameShape (merge R Y Z) :=
    sameShape_trans hXY (sameShape_symm (merge_sameShape R Y Z hYZ))
  rw [merge_mHistoNum R _ _ hs.1, merge_mHistoDen R _ _ hs.2,
    merge_mHistoNum R _ _ hYZ.1, merge_mHistoDen R _ _ hYZ.2]
  simp only [hR]
  constructor <;> (funext i; ring)

/-- Bins of an accumulator built by raw fills on an empty one and then extended by more
fills, in exact arithmetic: the later fills add what they would add to an empty one. -/
theorem applyFills_cells (R : Rounding) (hR : ∀ q, R.toFloat q = q)
    (nx : ℕ) (x0 x1 : ℚ) (ny : ℕ) (y0 y1 s : ℚ) (m : MergeableTH2Ratio)
    (hm : m.sameShape (MergeableTH2Ratio.new R nx x0 x1 ny y0 y1 s)) (ops : List FillOp)
    (i : ℕ) :
    (applyFills R m ops).mHistoNum.cells i = m.mHistoNum.cells i +
        (applyFills R (MergeableTH2Ratio.new R nx x0 x1 ny y0 y1 s) ops).mHistoNum.cells i ∧
    (applyFills R m ops).mHistoDen.cells i = m.mHistoDen.cells i +
        (applyFills R (MergeableTH2Ratio.new R nx x0 x1 ny y0 y1 s) ops).mHistoDen.cells i := by
  have h := applyFills_increment R hR ops m _ hm i
  have z1 : (MergeableTH2Ratio.new R nx x0 x1 ny y0 y1 s).mHistoNum.cells i = 0 := rfl
  have z2 : (MergeableTH2Ratio.new R nx x0 x1 ny y0 y1 s).mHistoDen.cells i = 0 := rfl
  rw [z1, z2] at h
  constructor
  · linarith [h.1]
  · linarith [h.2]

theorem new_sameShape (R : Rounding) (nx : ℕ) (x0 x1 : ℚ) (ny : ℕ) (y0 y1 s t : ℚ) :
    (MergeableTH2Ratio.new R nx x0 x1 ny y0 y1 s).sameShape
      (MergeableTH2Ratio.new R nx x0 x1 ny y0 y1 t) :=
  ⟨⟨rfl, rfl⟩, ⟨rfl, rfl⟩⟩

end MergeableTH2Ratio

/-! ### Whole-number fills in `Float_t` arithmetic -/

namespace MergeableTH2Ratio

theorem numTotalAt_cons (g : TH2F) (i : ℕ) (op : FillOp) (ops : List FillOp) :
    numTotalAt g i (op :: ops) = numTotalAt g i [op] + numTotalAt g i ops := by
  simp [numTotalAt]

theorem denTotalAt_cons (g : TH2F) (i : ℕ) (op : FillOp) (ops : List FillOp) :
    denTotalAt g i (op :: ops) = denTotalAt g i [op] + denTotalAt g i ops := by
  simp [denTotalAt]

theorem numTotalAt_append (g : TH2F) (i : ℕ) (xs ys : List FillOp) :
    numTotalAt g i (xs ++ ys) = numTotalAt g i xs + numTotalAt g i ys := by
  simp [numTotalAt]

theorem denTotalAt_append (g : TH2F) (i : ℕ) (xs ys : List FillOp) :
    denTotalAt g i (xs ++ ys) = denTotalAt g i xs + denTotalAt g i ys := by
  simp [denTotalAt]

/-- One whole-number fill in `Float_t` arithmetic: the numerator bin `i`, holding the whole
number `n0`, afterwards holds `n0` plus the weight sent to it, if that stays below `2 ^ 24`;
the denominator bin is treated likewise. -/
theorem applyFill_whole (g : TH2F) (i : ℕ) (m : MergeableTH2Ratio) (op : FillOp)
    (hw : op.whole) :
    (m.mHistoNum.sameShape g → ∀ n0 : ℕ, m.mHistoNum.cells i = n0 →
      n0 + numTotalAt g i [op] < 2 ^ 24 →
      (applyFill Rounding.ieee m op).mHistoNum.cells i = ((n0 + numTotalAt g i [op] : ℕ) : ℚ)) ∧
    (m.mHistoDen.sameShape g → ∀ n0 : ℕ, m.mHistoDen.cells i = n0 →
      n0 + denTotalAt g i [op] < 2 ^ 24 →
      (applyFill Rounding.ieee m op).mHistoDen.cells i = ((n0 + denTotalAt g i [op] : ℕ) : ℚ)) := by
  cases op with
  | num x y w =>
    have hww : w = ((⌊w⌋₊ : ℕ) : ℚ) := hw
    refine ⟨fun hs n0 h0 hlt => ?_, fun _ n0 h0 _ => ?_⟩
    · have hb : m.mHistoNum.FindBin x y = g.FindBin x y := findBin_congr hs x y
      by_cases hi : g.FindBin x y = i
      · have ht : numTotalAt g i [FillOp.num x y w] = ⌊w⌋₊ := by simp [numTotalAt, hi]
        rw [ht] at hlt ⊢
        have e1 : Rounding.ieee.toFloat w = ((⌊w⌋₊ : ℕ) : ℚ) := by
          rw [hww, Nat.floor_natCast]
          exact roundBinary_natCast 24 _ (by norm_num) (by omega)
        have e2 : Rounding.ieee.toFloat (((n0 + ⌊w⌋₊ : ℕ) : ℚ)) = ((n0 + ⌊w⌋₊ : ℕ) : ℚ) :=
          roundBinary_natCast 24 _ (by norm_num) hlt
        simp only [applyFill, TH2F.Fill, getNum, hb, hi, Function.update_same, h0, e1]
        rw [← Nat.cast_add, e2]
      · have ht : numTotalAt g i [FillOp.num x y w] = 0 := by simp [numTotalAt, hi]
        rw [ht, Nat.add_zero]
        simp only [applyFill, TH2F.Fill, getNum, hb]
        rw [Function.update_noteq (Ne.symm hi), h0]
    · have ht : denTotalAt g i [FillOp.num x y w] = 0 := by simp [denTotalAt]
      rw [ht, Nat.add_zero]
      exact h0
  | den x y w =>
    have hww : w = ((⌊w⌋₊ : ℕ) : ℚ) := hw
    refine ⟨fun _ n0 h0 _ => ?_, fun hs n0 h0 hlt => ?_⟩
    · have ht : numTotalAt g i [FillOp.den x y w] = 0 := by simp [numTotalAt]
      rw [ht, Nat.add_zero]
      exact h0
    · have hb : m.mHistoDen.FindBin x y = g.FindBin x y := findBin_congr hs x y
      by_cases hi : g.FindBin x y = i
      · have ht : denTotalAt g i [FillOp.den x y w] = ⌊w⌋₊ := by simp [denTotalAt, hi]
        rw [ht] at hlt ⊢
        have e1 : Rounding.ieee.toFloat w = ((⌊w⌋₊ : ℕ) : ℚ) := by
          rw [hww, Nat.floor_natCast]
          exact roundBinary_natCast 24 _ (by norm_num) (by omega)
        have e2 : Rounding.ieee.toFloat (((n0 + ⌊w⌋₊ : ℕ) : ℚ)) = ((n0 + ⌊w⌋₊ : ℕ) : ℚ) :=
          roundBinary_natCast 24 _ (by norm_num) hlt
        simp only [applyFill, TH2F.Fill, getDen, hb, hi, Function.update_same, h0, e1]
        rw [← Nat.cast_add, e2]
      · have ht : denTotalAt g i [FillOp.den x y w] = 0 := by simp [denTotalAt, hi]
        rw [ht, Nat.add_zero]
        simp only [applyFill, TH2F.Fill, getDen, hb]
        rw [Function.update_noteq (Ne.symm hi), h0]

end MergeableTH2Ratio

namespace MergeableTH2Ratio

/-- A sequence of whole-number fills in `Float_t` arithmetic: a bin holding the whole number
`n0` afterwards holds `n0` plus the total weight sent to it, if that stays below `2 ^ 24`. -/
theorem applyFills_whole (g : TH2F) (i : ℕ) (ops : List FillOp) :
    ∀ (m : MergeableTH2Ratio), (∀ op ∈ ops, op.whole) →
    (m.mHistoNum.sameShape g → ∀ n0 : ℕ, m.mHistoNum.cells i = n0 →
      n0 + numTotalAt g i ops < 2 ^ 24 →
      (applyFills Rounding.ieee m ops).mHistoNum.cells i = ((n0 + numTotalAt g i ops : ℕ) : ℚ)) ∧
    (m.mHistoDen.sameShape g → ∀ n0 : ℕ, m.mHistoDen.cells i = n0 →
      n0 + denTotalAt g i ops < 2 ^ 24 →
      (applyFills Rounding.ieee m ops).mHistoDen.cells i = ((n0 + denTotalAt g i ops : ℕ) : ℚ)) := by
  induction ops with
  | nil =>
    intro m _
    refine ⟨fun _ n0 h0 _ => ?_, fun _ n0 h0 _ => ?_⟩
    · simpa [applyFills, numTotalAt] using h0
    · simpa [applyFills, denTotalAt] using h0
  | cons op ops ih =>
    intro m hw
    have hop : op.whole := hw op (List.mem_cons_self _ _)
    have hrest : ∀ o ∈ ops, o.whole := fun o ho => hw o (List.mem_cons_of_mem _ ho)
    have hstep := applyFill_whole g i m op hop
    have hih := ih (applyFill Rounding.ieee m op) hrest
    have hsh := applyFill_sameShape Rounding.ieee m op
    have e : applyFills Rounding.ieee m (op :: ops)
        = applyFills Rounding.ieee (applyFill Rounding.ieee m op) ops := rfl
    refine ⟨fun hs n0 h0 hlt => ?_, fun hs n0 h0 hlt => ?_⟩
    · rw [numTotalAt_cons] at hlt ⊢
      have h1 := hstep.1 hs n0 h0 (by omega)
      have hs1 : (applyFill Rounding.ieee m op).mHistoNum.sameShape g :=
        ⟨hsh.1.1.trans hs.1, hsh.1.2.trans hs.2⟩
      rw [e, hih.1 hs1 _ h1 (by omega), Nat.add_assoc]
    · rw [denTotalAt_cons] at hlt ⊢
      have h1 := hstep.2 hs n0 h0 (by omega)
      have hs1 : (applyFill Rounding.ieee m op).mHistoDen.sameShape g :=
        ⟨hsh.2.1.trans hs.1, hsh.2.2.trans hs.2⟩
      rw [e, hih.2 hs1 _ h1 (by omega), Nat.add_assoc]

/-- Bins of an accumulator built by whole-number fills on an empty one, in `Float_t`
arithmetic: each bin holds the total weight sent to it, if that is below `2 ^ 24`. -/
theorem applyFills_new_whole (nx : ℕ) (x0 x1 : ℚ) (ny : ℕ) (y0 y1 s : ℚ) (i : ℕ)
    (ops : List FillOp) (hw : ∀ op ∈ ops, op.whole) :
    (numTotalAt (TH2F.new nx x0 x1 ny y0 y1) i ops < 2 ^ 24 →
      (applyFills Rounding.ieee (MergeableTH2Ratio.new Rounding.ieee nx x0 x1 ny y0 y1 s)
        ops).mHistoNum.cells i = ((numTotalAt (TH2F.new nx x0 x1 ny y0 y1) i ops : ℕ) : ℚ)) ∧
    (denTotalAt (TH2F.new nx x0 x1 ny y0 y1) i ops < 2 ^ 24 →
      (applyFills Rounding.ieee (MergeableTH2Ratio.new Rounding.ieee nx x0 x1 ny y0 y1 s)
        ops).mHistoDen.cells i = ((denTotalAt (TH2F.new nx x0 x1 ny y0 y1) i ops : ℕ) : ℚ)) := by
  have h := applyFills_whole (TH2F.new nx x0 x1 ny y0 y1) i ops
    (MergeableTH2Ratio.new Rounding.ieee nx x0 x1 ny y0 y1 s) hw
  constructor
  · intro hlt
    have := h.1 ⟨rfl, rfl⟩ 0 (by simp [MergeableTH2Ratio.new, update, TH2F.new]) (by omega)
    rw [this, Nat.zero_add]
  · intro hlt
    have := h.2 ⟨rfl, rfl⟩ 0 (by simp [MergeableTH2Ratio.new, update, TH2F.new]) (by omega)
    rw [this, Nat.zero_add]

end MergeableTH2Ratio

namespace MergeableTH2Ratio

/-- In `Float_t` arithmetic three whole numbers whose total is below `2 ^ 24` add up
exactly, in either grouping. -/
theorem ieee_add_three (a b c : ℕ) (h : a + b + c < 2 ^ 24) :
    Rounding.ieee.toFloat (Rounding.ieee.toFloat ((a : ℚ) + b) + c) = ((a + b + c : ℕ) : ℚ) ∧
    Rounding.ieee.toFloat ((a : ℚ) + Rounding.ieee.toFloat ((b : ℚ) + c))
      = ((a + b + c : ℕ) : ℚ) := by
  have e1 : Rounding.ieee.toFloat ((a : ℚ) + b) = ((a + b : ℕ) : ℚ) := by
    have := roundBinary_natCast 24 (a + b) (by norm_num) (by omega)
    rw [Nat.cast_add] at this ⊢
    exact this
  have e2 : Rounding.ieee.toFloat ((b : ℚ) + c) = ((b + c : ℕ) : ℚ) := by
    have := roundBinary_natCast 24 (b + c) (by norm_num) (by omega)
    rw [Nat.cast_add] at this ⊢
    exact this
  have e3 : Rounding.ieee.toFloat (((a + b + c : ℕ) : ℚ)) = ((a + b + c : ℕ) : ℚ) :=
    roundBinary_natCast 24 (a + b + c) (by norm_num) h
  constructor
  · rw [e1, ← Nat.cast_add, e3]
  · rw [e2, ← Nat.cast_add, ← Nat.add_assoc, e3]

/-- In `Float_t` arithmetic, in a bin where three accumulators of one shape hold whole
numbers whose total is below `2 ^ 24`, both groupings of the two merges give the total. -/
theorem merge_ieee_whole (X Y Z : MergeableTH2Ratio) (hXY : X.sameShape Y)
    (hYZ : Y.sameShape Z) (i x y z : ℕ) (h : x + y + z < 2 ^ 24) :
    (X.mHistoNum.cells i = x → Y.mHistoNum.cells i = y → Z.mHistoNum.cells i = z →
      (merge Rounding.ieee (merge Rounding.ieee X Y) Z).mHistoNum.cells i
          = ((x + y + z : ℕ) : ℚ) ∧
      (merge Rounding.ieee X (merge Rounding.ieee Y Z)).mHistoNum.cells i
          = ((x + y + z : ℕ) : ℚ)) ∧
    (X.mHistoDen.cells i = x → Y.mHistoDen.cells i = y → Z.mHistoDen.cells i = z →
      (merge Rounding.ieee (merge Rounding.ieee X Y) Z).mHistoDen.cells i
          = ((x + y + z : ℕ) : ℚ) ∧
      (merge Rounding.ieee X (merge Rounding.ieee Y Z)).mHistoDen.cells i
          = ((x + y + z : ℕ) : ℚ)) := by
  have hl : (merge Rounding.ieee X Y).sameShape Z :=
    sameShape_trans (merge_sameShape _ X Y hXY) (sameShape_trans hXY hYZ)
  have hr : X.sameShape (merge Rounding.ieee Y Z) :=
    sameShape_trans hXY (sameShape_symm (merge_sameShape _ Y Z hYZ))
  have h3 := ieee_add_three x y z h
  constructor
  · intro ex ey ez
    rw [merge_mHistoNum _ _ _ hl.1, merge_mHistoNum _ _ _ hr.1,
      merge_mHistoNum _ _ _ hXY.1, merge_mHistoNum _ _ _ hYZ.1]
    simp only [ex, ey, ez]
    exact h3
  · intro ex ey ez
    rw [merge_mHistoDen _ _ _ hl.2, merge_mHistoDen _ _ _ hr.2,
      merge_mHistoDen _ _ _ hXY.2, merge_mHistoDen _ _ _ hYZ.2]
    simp only [ex, ey, ez]
    exact h3

/-- In `Float_t` arithmetic, in a bin where three accumulators of one shape hold whole
numbers whose total is below `2 ^ 24`, every order and grouping of the merges gives the
total. -/
theorem merge_ieee_whole_orders (A B C : MergeableTH2Ratio) (hAB : A.sameShape B)
    (hBC : B.sameShape C) (i a b c : ℕ) (h : a + b + c < 2 ^ 24) :
    (A.mHistoNum.cells i = a → B.mHistoNum.cells i = b → C.mHistoNum.cells i = c →
      ∀ p ∈ [(A, B, C), (A, C, B), (B, A, C), (B, C, A), (C, A, B), (C, B, A)],
        (merge Rounding.ieee (merge Rounding.ieee p.1 p.2.1) p.2.2).mHistoNum.cells i
            = ((a + b + c : ℕ) : ℚ) ∧
        (merge Rounding.ieee p.1 (merge Rounding.ieee p.2.1 p.2.2)).mHistoNum.cells i
            = ((a + b + c : ℕ) : ℚ)) ∧
    (A.mHistoDen.cells i = a → B.mHistoDen.cells i = b → C.mHistoDen.cells i = c →
      ∀ p ∈ [(A, B, C), (A, C, B), (B, A, C), (B, C, A), (C, A, B), (C, B, A)],
        (merge Rounding.ieee (merge Rounding.ieee p.1 p.2.1) p.2.2).mHistoDen.cells i
            = ((a + b + c : ℕ) : ℚ) ∧
        (merge Rounding.ieee p.1 (merge Rounding.ieee p.2.1 p.2.2)).mHistoDen.cells i
            = ((a + b + c : ℕ) : ℚ)) := by
  have hBA := sameShape_symm hAB
  have hCB := sameShape_symm hBC
  have hAC := sameShape_trans hAB hBC
  have hCA := sameShape_symm hAC
  have e1 : a + c + b = a + b + c := by omega
  have e2 : b + a + c = a + b + c := by omega
  have e3 : b + c + a = a + b + c := by omega
  have e4 : c + a + b = a + b + c := by omega
  have e5 : c + b + a = a + b + c := by omega
  have k0 := merge_ieee_whole A B C hAB hBC i a b c h
  have k1 := merge_ieee_whole A C B hAC hCB i a c b (by omega)
  have k2 := merge_ieee_whole B A C hBA hAC i b a c (by omega)
  have k3 := merge_ieee_whole B C A hBC hCA i b c a (by omega)
  have k4 := merge_ieee_whole C A B hCA hAB i c a b (by omega)
  have k5 := merge_ieee_whole C B A hCB hBA i c b a (by omega)
  rw [e1] at k1
  rw [e2] at k2
  rw [e3] at k3
  rw [e4] at k4
  rw [e5] at k5
  constructor
  · intro ea eb ec p hp
    simp only [List.mem_cons, List.mem_singleton, List.not_mem_nil, or_false] at hp
    rcases hp with rfl | rfl | rfl | rfl | rfl | rfl
    · exact k0.1 ea eb ec
    · exact k1.1 ea ec eb
    · exact k2.1 eb ea ec
    · exact k3.1 eb ec ea
    · exact k4.1 ec ea eb
    · exact k5.1 ec eb ea
  · intro ea eb ec p hp
    simp only [List.mem_cons, List.mem_singleton, List.not_mem_nil, or_false] at hp
    rcases hp with rfl | rfl | rfl | rfl | rfl | rfl
    · exact k0.2 ea eb ec
    · exact k1.2 ea ec eb
    · exact k2.2 eb ea ec
    · exact k3.2 eb ec ea
    · exact k4.2 ec ea eb
    · exact k5.2 ec eb ea

end MergeableTH2Ratio

namespace MergeableTH2Ratio

/-- Claim C1, amended. For accumulators of identical shape, `merge(other)` replaces the
numerator by the elementwise `Float_t` sum numerator + other.numerator and the denominator
by denominator + other.denominator (`other` is only read), and the two operands may be
exchanged. In `Float_t` arithmetic, for A, B, C of one shape: in every bin where the three
numerator (or the three denominator) contents are whole numbers a, b, c with
a + b + c < 2 ^ 24, merging in any order and grouping gives exactly a + b + c; and when
A, B, C were built from empty accumulators by raw fills with whole-number weights, in every
bin whose total weight over all these fills is below `2 ^ 24` the merge in any order and
grouping gives the content of one accumulator that received the union of the fills. In exact
arithmetic (no addition rounds) both statements hold for all contents and weights. -/
theorem merge_sums (R : Rounding) (A B C : MergeableTH2Ratio)
    (hAB : A.sameShape B) (hBC : B.sameShape C) :
    ((merge R A B).mHistoNum = ⟨A.mHistoNum.xaxis, A.mHistoNum.yaxis,
        fun i => R.toFloat (A.mHistoNum.cells i + B.mHistoNum.cells i)⟩ ∧
      (merge R A B).mHistoDen = ⟨A.mHistoDen.xaxis, A.mHistoDen.yaxis,
        fun i => R.toFloat (A.mHistoDen.cells i + B.mHistoDen.cells i)⟩) ∧
    ((merge R A B).mHistoNum = (merge R B A).mHistoNum ∧
      (merge R A B).mHistoDen = (merge R B A).mHistoDen) ∧
    ((∀ q, R.toFloat q = q) →
      (∀ p ∈ [(A, B, C), (A, C, B), (B, A, C), (B, C, A), (C, A, B), (C, B, A)],
        ((merge R (merge R p.1 p.2.1) p.2.2).mHistoNum.cells =
            (merge R (merge R A B) C).mHistoNum.cells ∧
          (merge R (merge R p.1 p.2.1) p.2.2).mHistoDen.cells =
            (merge R (merge R A B) C).mHistoDen.cells) ∧
        ((merge R p.1 (merge R p.2.1 p.2.2)).mHistoNum.cells =
            (merge R (merge R A B) C).mHistoNum.cells ∧
          (merge R p.1 (merge R p.2.1 p.2.2)).mHistoDen.cells =
            (merge R (merge R A B) C).mHistoDen.cells)) ∧
      (∀ (nx : ℕ) (x0 x1 : ℚ) (ny : ℕ) (y0 y1 sa sb sc : ℚ) (fa fb fc : List FillOp),
        A = applyFills R (MergeableTH2Ratio.new R nx x0 x1 ny y0 y1 sa) fa →
        B = applyFills R (MergeableTH2Ratio.new R nx x0 x1 ny y0 y1 sb) fb →
        C = applyFills R (MergeableTH2Ratio.new R nx x0 x1 ny y0 y1 sc) fc →
        (merge R (merge R A B) C).mHistoNum.cells =
          (applyFills R (MergeableTH2Ratio.new R nx x0 x1 ny y0 y1 sa)
            (fa ++ fb ++ fc)).mHistoNum.cells ∧
        (merge R (merge R A B) C).mHistoDen.cells =
          (applyFills R (MergeableTH2Ratio.new R nx x0 x1 ny y0 y1 sa)
            (fa ++ fb ++ fc)).mHistoDen.cells)) ∧
    (∀ (i a b c : ℕ), a + b + c < 2 ^ 24 →
      (A.mHistoNum.cells i = a → B.mHistoNum.cells i = b → C.mHistoNum.cells i = c →
        ∀ p ∈ [(A, B, C), (A, C, B), (B, A, C), (B, C, A), (C, A, B), (C, B, A)],
          (merge Rounding.ieee (merge Rounding.ieee p.1 p.2.1) p.2.2).mHistoNum.cells i
              = ((a + b + c : ℕ) : ℚ) ∧
          (merge Rounding.ieee p.1 (merge Rounding.ieee p.2.1 p.2.2)).mHistoNum.cells i
              = ((a + b + c : ℕ) : ℚ)) ∧
      (A.mHistoDen.cells i = a → B.mHistoDen.cells i = b → C.mHistoDen.cells i = c →
        ∀ p ∈ [(A, B, C), (A, C, B), (B, A, C), (B, C, A), (C, A, B), (C, B, A)],
          (merge Rounding.ieee (merge Rounding.ieee p.1 p.2.1) p.2.2).mHistoDen.cells i
              = ((a + b + c : ℕ) : ℚ) ∧
          (merge Rounding.ieee p.1 (merge Rounding.ieee p.2.1 p.2.2)).mHistoDen.cells i
              = ((a + b + c : ℕ) : ℚ))) ∧
    (∀ (nx : ℕ) (x0 x1 : ℚ) (ny : ℕ) (y0 y1 sa sb sc : ℚ) (fa fb fc : List FillOp),
      A = applyFills Rounding.ieee (MergeableTH2Ratio.new Rounding.ieee nx x0 x1 ny y0 y1 sa) fa →
      B = applyFills Rounding.ieee (MergeableTH2Ratio.new Rounding.ieee nx x0 x1 ny y0 y1 sb) fb →
      C = applyFills Rounding.ieee (MergeableTH2Ratio.new Rounding.ieee nx x0 x1 ny y0 y1 sc) fc →
      (∀ op ∈ fa ++ fb ++ fc, op.whole) → ∀ i : ℕ,
      (numTotalAt (TH2F.new nx x0 x1 ny y0 y1) i (fa ++ fb ++ fc) < 2 ^ 24 →
        ∀ p ∈ [(A, B, C), (A, C, B), (B, A, C), (B, C, A), (C, A, B), (C, B, A)],
          (merge Rounding.ieee (merge Rounding.ieee p.1 p.2.1) p.2.2).mHistoNum.cells i =
            (applyFills Rounding.ieee
              (MergeableTH2Ratio.new Rounding.ieee nx x0 x1 ny y0 y1 sa)
              (fa ++ fb ++ fc)).mHistoNum.cells i ∧
          (merge Rounding.ieee p.1 (merge Rounding.ieee p.2.1 p.2.2)).mHistoNum.cells i =
            (applyFills Rounding.ieee
              (MergeableTH2Ratio.new Rounding.ieee nx x0 x1 ny y0 y1 sa)
              (fa ++ fb ++ fc)).mHistoNum.cells i) ∧
      (denTotalAt (TH2F.new nx x0 x1 ny y0 y1) i (fa ++ fb ++ fc) < 2 ^ 24 →
        ∀ p ∈ [(A, B, C), (A, C, B), (B, A, C), (B, C, A), (C, A, B), (C, B, A)],
          (merge Rounding.ieee (merge Rounding.ieee p.1 p.2.1) p.2.2).mHistoDen.cells i =
            (applyFills Rounding.ieee
              (MergeableTH2Ratio.new Rounding.ieee nx x0 x1 ny y0 y1 sa)
              (fa ++ fb ++ fc)).mHistoDen.cells i ∧
          (merge Rounding.ieee p.1 (merge Rounding.ieee p.2.1 p.2.2)).mHistoDen.cells i =
            (applyFills Rounding.ieee
              (MergeableTH2Ratio.new Rounding.ieee nx x0 x1 ny y0 y1 sa)
              (fa ++ fb ++ fc)).mHistoDen.cells i)) := by
  have hBA := sameShape_symm hAB
  have hCB := sameShape_symm hBC
  have hAC := sameShape_trans hAB hBC
  have hCA := sameShape_symm hAC
  refine ⟨⟨merge_mHistoNum R A B hAB.1, merge_mHistoDen R A B hAB.2⟩, ⟨?_, ?_⟩,
    fun hR => ⟨?_, ?_⟩, ?_, ?_⟩
  · rw [merge_mHistoNum R A B hAB.1, merge_mHistoNum R B A hBA.1, hAB.1.1, hAB.1.2]
    congr 1
    funext i
    rw [add_comm]
  · rw [merge_mHistoDen R A B hAB.2, merge_mHistoDen R B A hBA.2, hAB.2.1, hAB.2.2]
    congr 1
    funext i
    rw [add_comm]
  · have h0 := merge_merge_left R hR A B C hAB hBC
    intro p hp
    simp only [List.mem_cons, List.mem_singleton, List.not_mem_nil, or_false] at hp
    rcases hp with rfl | rfl | rfl | rfl | rfl | rfl
    · have h1 := merge_merge_right R hR A B C hAB hBC
      exact ⟨⟨rfl, rfl⟩, ⟨h1.1.trans h0.1.symm, h1.2.trans h0.2.symm⟩⟩
    · have h1 := merge_merge_left R hR A C B hAC hCB
      have h2 := merge_merge_right R hR A C B hAC hCB
      refine ⟨⟨?_, ?_⟩, ⟨?_, ?_⟩⟩
      · rw [h1.1, h0.1]; funext i; ring
      · rw [h1.2, h0.2]; funext i; ring
      · rw [h2.1, h0.1]; funext i; ring
      · rw [h2.2, h0.2]; funext i; ring
    · have h1 := merge_merge_left R hR B A C hBA hAC
      have h2 := merge_merge_right R hR B A C hBA hAC
      refine ⟨⟨?_, ?_⟩, ⟨?_, ?_⟩⟩
      · rw [h1.1, h0.1]; funext i; ring
      · rw [h1.2, h0.2]; funext i; ring
      · rw [h2.1, h0.1]; funext i; ring
      · rw [h2.2, h0.2]; funext i; ring
    · have h1 := merge_merge_left R hR B C A hBC hCA
      have h2 := merge_merge_right R hR B C A hBC hCA
      refine ⟨⟨?_, ?_⟩, ⟨?_, ?_⟩⟩
      · rw [h1.1, h0.1]; funext i; ring
      · rw [h1.2, h0.2]; funext i; ring
      · rw [h2.1, h0.1]; funext i; ring
      · rw [h2.2, h0.2]; funext i; ring
    · have h1 := merge_merge_left R hR C A B hCA hAB
      have h2 := merge_merge_right R hR C A B hCA hAB
      refine ⟨⟨?_, ?_⟩, ⟨?_, ?_⟩⟩
      · rw [h1.1, h0.1]; funext i; ring
      · rw [h1.2, h0.2]; funext i; ring
      · rw [h2.1, h0.1]; funext i; ring
      · rw [h2.2, h0.2]; funext i; ring
    · have h1 := merge_merge_left R hR C B A hCB hBA
      have h2 := merge_merge_right R hR C B A hCB hBA
      refine ⟨⟨?_, ?_⟩, ⟨?_, ?_⟩⟩
      · rw [h1.1, h0.1]; funext i; ring
      · rw [h1.2, h0.2]; funext i; ring
      · rw [h2.1, h0.1]; funext i; ring
      · rw [h2.2, h0.2]; funext i; ring
  · intro nx x0 x1 ny y0 y1 sa sb sc fa fb fc eA eB eC
    have h0 := merge_merge_left R hR A B C hAB hBC
    have sA : A.sameShape (MergeableTH2Ratio.new R nx x0 x1 ny y0 y1 sb) := by
      rw [eA]
      exact sameShape_trans (applyFills_sameShape R fa _) (new_sameShape R nx x0 x1 ny y0 y1 sa sb)
    have sAB : (applyFills R A fb).sameShape (MergeableTH2Ratio.new R nx x0 x1 ny y0 y1 sc) := by
      refine sameShape_trans (applyFills_sameShape R fb A) (sameShape_trans sA ?_)
      exact new_sameShape R nx x0 x1 ny y0 y1 sb sc
    have e : applyFills R (MergeableTH2Ratio.new R nx x0 x1 ny y0 y1 sa) (fa ++ fb ++ fc)
        = applyFills R (applyFills R A fb) fc := by
      rw [applyFills_append, applyFills_append, ← eA]
    rw [e, h0.1, h0.2]
    constructor
    · funext i
      rw [(applyFills_cells R hR nx x0 x1 ny y0 y1 sc _ sAB fc i).1,
        (applyFills_cells R hR nx x0 x1 ny y0 y1 sb A sA fb i).1, ← eB, ← eC]
    · funext i
      rw [(applyFills_cells R hR nx x0 x1 ny y0 y1 sc _ sAB fc i).2,
        (applyFills_cells R hR nx x0 x1 ny y0 y1 sb A sA fb i).2, ← eB, ← eC]
  · intro i a b c habc
    exact merge_ieee_whole_orders A B C hAB hBC i a b c habc
  · intro nx x0 x1 ny y0 y1 sa sb sc fa fb fc eA eB eC hw i
    have hwa : ∀ op ∈ fa, op.whole := fun op h =>
      hw op (List.mem_append_left _ (List.mem_append_left _ h))
    have hwb : ∀ op ∈ fb, op.whole := fun op h =>
      hw op (List.mem_append_left _ (List.mem_append_right _ h))
    have hwc : ∀ op ∈ fc, op.whole := fun op h => hw op (List.mem_append_right _ h)
    constructor
    · intro hlt
      have ht : numTotalAt (TH2F.new nx x0 x1 ny y0 y1) i (fa ++ fb ++ fc) =
          numTotalAt (TH2F.new nx x0 x1 ny y0 y1) i fa +
            numTotalAt (TH2F.new nx x0 x1 ny y0 y1) i fb +
            numTotalAt (TH2F.new nx x0 x1 ny y0 y1) i fc := by
        rw [numTotalAt_append, numTotalAt_append]
      have hu := (applyFills_new_whole nx x0 x1 ny y0 y1 sa i (fa ++ fb ++ fc) hw).1 hlt
      rw [ht] at hlt hu
      have ha : A.mHistoNum.cells i = (numTotalAt (TH2F.new nx x0 x1 ny y0 y1) i fa : ℕ) := by
        rw [eA]
        exact (applyFills_new_whole nx x0 x1 ny y0 y1 sa i fa hwa).1 (by omega)
      have hb : B.mHistoNum.cells i = (numTotalAt (TH2F.new nx x0 x1 ny y0 y1) i fb : ℕ) := by
        rw [eB]
        exact (applyFills_new_whole nx x0 x1 ny y0 y1 sb i fb hwb).1 (by omega)
      have hc : C.mHistoNum.cells i = (numTotalAt (TH2F.new nx x0 x1 ny y0 y1) i fc : ℕ) := by
        rw [eC]
        exact (applyFills_new_whole nx x0 x1 ny y0 y1 sc i fc hwc).1 (by omega)
      intro p hp
      rw [hu]
      exact (merge_ieee_whole_orders A B C hAB hBC i _ _ _ hlt).1 ha hb hc p hp
    · intro hlt
      have ht : denTotalAt (TH2F.new nx x0 x1 ny y0 y1) i (fa ++ fb ++ fc) =
          denTotalAt (TH2F.new nx x0 x1 ny y0 y1) i fa +
            denTotalAt (TH2F.new nx x0 x1 ny y0 y1) i fb +
            denTotalAt (TH2F.new nx x0 x1 ny y0 y1) i fc := by
        rw [denTotalAt_append, denTotalAt_append]
      have hu := (applyFills_new_whole nx x0 x1 ny y0 y1 sa i (fa ++ fb ++ fc) hw).2 hlt
      rw [ht] at hlt hu
      have ha : A.mHistoDen.cells i = (denTotalAt (TH2F.new nx x0 x1 ny y0 y1) i fa : ℕ) := by
        rw [eA]
        exact (applyFills_new_whole nx x0 x1 ny y0 y1 sa i fa hwa).2 (by omega)
      have hb : B.mHistoDen.cells i = (denTotalAt (TH2F.new nx x0 x1 ny y0 y1) i fb : ℕ) := by
        rw [eB]
        exact (applyFills_new_whole nx x0 x1 ny y0 y1 sb i fb hwb).2 (by omega)
      have hc : C.mHistoDen.cells i = (denTotalAt (TH2F.new nx x0 x1 ny y0 y1) i fc : ℕ) := by
        rw [eC]
        exact (applyFills_new_whole nx x0 x1 ny y0 y1 sc i fc hwc).2 (by omega)
      intro p hp
      rw [hu]
      exact (merge_ieee_whole_orders A B C hAB hBC i _ _ _ hlt).2 ha hb hc p hp

end MergeableTH2Ratio

namespace MergeableTH2Ratio

open Sample

theorem sampleFills_whole :
    ∀ op ∈ ([.num 1 1 10, .den 1 1 2] ++ [.num 1 1 5, .den 1 1 3] ++
      [.num 1 1 5, .den 1 1 3] : List FillOp), op.whole := by
  intro op hop
  simp only [List.cons_append, List.nil_append, List.mem_cons, List.mem_singleton,
    List.not_mem_nil, or_false] at hop
  rcases hop with rfl | rfl | rfl | rfl | rfl | rfl <;>
    simp [FillOp.whole, FillOp.weight]

theorem sampleFills_numTotal :
    numTotalAt (TH2F.new 5 0 5 5 0 5) 16
      ([.num 1 1 10, .den 1 1 2] ++ [.num 1 1 5, .den 1 1 3] ++ [.num 1 1 5, .den 1 1 3])
      = 20 := by
  have hb : (TH2F.new 5 0 5 5 0 5).FindBin 1 1 = 16 := findBin_one_one _ rfl rfl
  simp [numTotalAt, hb]

/-- Witness of `merge_sums` on the sample accumulators. In `Float_t` arithmetic the order
B, A, B gives, in the bin of the point (1,1), the numerator content of one accumulator that
received all six whole-number fills (total 20); in exact arithmetic the order B, A, B gives
the bins of the order A, B, B, which are the bins of that one accumulator. -/
theorem merge_sums_witness :
    ((accA Rounding.ieee).sameShape (accB Rounding.ieee) ∧
      (accB Rounding.ieee).sameShape (accB Rounding.ieee) ∧
      (∀ op ∈ ([.num 1 1 10, .den 1 1 2] ++ [.num 1 1 5, .den 1 1 3] ++
        [.num 1 1 5, .den 1 1 3] : List FillOp), op.whole) ∧
      numTotalAt (TH2F.new 5 0 5 5 0 5) 16
        ([.num 1 1 10, .den 1 1 2] ++ [.num 1 1 5, .den 1 1 3] ++ [.num 1 1 5, .den 1 1 3])
        < 2 ^ 24 ∧
      (merge Rounding.ieee (merge Rounding.ieee (accB Rounding.ieee) (accA Rounding.ieee))
          (accB Rounding.ieee)).mHistoNum.cells 16 =
        (applyFills Rounding.ieee (MergeableTH2Ratio.new Rounding.ieee 5 0 5 5 0 5 1)
          ([.num 1 1 10, .den 1 1 2] ++ [.num 1 1 5, .den 1 1 3] ++
            [.num 1 1 5, .den 1 1 3])).mHistoNum.cells 16) ∧
    (accA Rounding.exact).sameShape (accB Rounding.exact) ∧
    (accB Rounding.exact).sameShape (accB Rounding.exact) ∧
    (∀ q, Rounding.exact.toFloat q = q) ∧
    (merge Rounding.exact (merge Rounding.exact (accB Rounding.exact) (accA Rounding.exact))
        (accB Rounding.exact)).mHistoNum.cells =
      (merge Rounding.exact (merge Rounding.exact (accA Rounding.exact) (accB Rounding.exact))
        (accB Rounding.exact)).mHistoNum.cells ∧
    (merge Rounding.exact (merge Rounding.exact (accA Rounding.exact) (accB Rounding.exact))
        (accB Rounding.exact)).mHistoNum.cells =
      (applyFills Rounding.exact (MergeableTH2Ratio.new Rounding.exact 5 0 5 5 0 5 1)
        ([.num 1 1 10, .den 1 1 2] ++ [.num 1 1 5, .den 1 1 3] ++
          [.num 1 1 5, .den 1 1 3])).mHistoNum.cells :=
  ⟨⟨accA_sameShape_accB _, sameShape_refl _, sampleFills_whole,
      by rw [sampleFills_numTotal]; norm_num,
      ((((merge_sums Rounding.ieee (accA Rounding.ieee) (accB Rounding.ieee)
        (accB Rounding.ieee) (accA_sameShape_accB _) (sameShape_refl _)).2.2.2.2
          5 0 5 5 0 5 1 1 1 _ _ _ rfl rfl rfl sampleFills_whole 16).1
            (by rw [sampleFills_numTotal]; norm_num))
        (accB Rounding.ieee, accA Rounding.ieee, accB Rounding.ieee) (by simp)).1⟩,
    accA_sameShape_accB _, sameShape_refl _, fun _ => rfl,
    (((merge_sums Rounding.exact (accA Rounding.exact) (accB Rounding.exact)
      (accB Rounding.exact) (accA_sameShape_accB _) (sameShape_refl _)).2.2.1 (fun _ => rfl)).1
        (accB Rounding.exact, accA Rounding.exact, accB Rounding.exact) (by simp)).1.1,
    (((merge_sums Rounding.exact (accA Rounding.exact) (accB Rounding.exact)
      (accB Rounding.exact) (accA_sameShape_accB _) (sameShape_refl _)).2.2.1 (fun _ => rfl)).2
        5 0 5 5 0 5 1 1 1 _ _ _ rfl rfl rfl).1⟩

end MergeableTH2Ratio

/-! ### The board fan-out -/

theorem mLocalBoardsMap_yaxis : mLocalBoardsMap.yaxis = ⟨36, 0, 9⟩ := rfl

theorem mLocalBoardsMap_xaxis : mLocalBoardsMap.xaxis = ⟨14, -7, 7⟩ := rfl

/-- The y bin of the coordinate `m / 4 + 0.01`: quarter number `m` lands in bin `m + 1`
as long as it is below 36, and above the range otherwise. -/
theorem yaxis_FindBin_quarter (m : ℕ) :
    mLocalBoardsMap.yaxis.FindBin ((m : ℚ) / 4 + 1 / 100) = if m < 36 then m + 1 else 37 := by
  rw [mLocalBoardsMap_yaxis]
  unfold Axis.FindBin
  have h0 : ¬ ((m : ℚ) / 4 + 1 / 100 < 0) := by
    have : (0 : ℚ) ≤ (m : ℚ) := by positivity
    linarith
  simp only [h0, if_false]
  by_cases hm : m < 36
  · have hq : (m : ℚ) ≤ 35 := by exact_mod_cast Nat.lt_succ_iff.mp hm
    have h9 : (m : ℚ) / 4 + 1 / 100 < 9 := by linarith
    have hfl : ⌊((36 : ℕ) : ℚ) * ((m : ℚ) / 4 + 1 / 100 - 0) / (9 - 0)⌋ = (m : ℤ) := by
      rw [Int.floor_eq_iff]
      push_cast
      constructor <;> linarith
    simp only [h9, not_true_eq_false, if_false, hm, if_true, hfl, Int.toNat_ofNat]
    omega
  · have hq : (36 : ℚ) ≤ (m : ℚ) := by exact_mod_cast Nat.le_of_not_lt hm
    have h9 : ¬ ((m : ℚ) / 4 + 1 / 100 < 9) := by linarith
    simp only [h9, not_false_eq_true, if_true, hm, if_false]

/-- The x bin of a column: columns 0..6 of the right side land in bins 8..14, those of the
other side in bins 7..1. -/
theorem xaxis_FindBin_colpos (c : ℕ) (hc : c ≤ 6) (isRightSide : Bool) :
    mLocalBoardsMap.xaxis.FindBin (colpos (c : ℤ) isRightSide) =
      if isRightSide then c + 8 else 7 - c := by
  rw [mLocalBoardsMap_xaxis]
  have hq0 : (0 : ℚ) ≤ (c : ℚ) := by positivity
  have hq : (c : ℚ) ≤ 6 := by exact_mod_cast hc
  cases isRightSide
  · have h1 : ¬ (-(c : ℚ) - 1 / 2 < -7) := by linarith
    have h2 : -(c : ℚ) - 1 / 2 < 7 := by linarith
    have hfl : ⌊((14 : ℕ) : ℚ) * (-(c : ℚ) - 1 / 2 - -7) / (7 - -7)⌋ = 6 - (c : ℤ) := by
      rw [Int.floor_eq_iff]
      push_cast
      constructor <;> linarith
    simp only [colpos, Axis.FindBin, Int.cast_natCast, Bool.false_eq_true, if_false, h1, h2,
      not_true_eq_false, hfl]
    omega
  · have h1 : ¬ ((c : ℚ) + 1 / 2 < -7) := by linarith
    have h2 : (c : ℚ) + 1 / 2 < 7 := by linarith
    have hfl : ⌊((14 : ℕ) : ℚ) * ((c : ℚ) + 1 / 2 - -7) / (7 - -7)⌋ = (c : ℤ) + 7 := by
      rw [Int.floor_eq_iff]
      push_cast
      constructor <;> linarith
    simp only [colpos, Axis.FindBin, Int.cast_natCast, if_true, h1, h2,
      not_true_eq_false, if_false, hfl]
    omega

/-- The quarter-line slot of pattern index `i` and board index `board`. -/
theorem linepos_eq (l nB i board : ℕ) :
    linepos (l : ℤ) nB i board =
      ((4 * l + (if nB = 2 ∧ i = 1 then 2 else i) + board : ℕ) : ℚ) / 4 + 1 / 100 := by
  unfold linepos
  split_ifs with h
  · push_cast; ring
  · push_cast; ring

/-- The bin pair of the point filled for pattern index `i` and board index `board`. -/
theorem boardBin_fill (l c : ℕ) (hc : c ≤ 6) (isRightSide : Bool) (nB i board : ℕ) :
    boardBin (colpos (c : ℤ) isRightSide, linepos (l : ℤ) nB i board) =
      ((if isRightSide then c + 8 else 7 - c),
       (if 4 * l + (if nB = 2 ∧ i = 1 then 2 else i) + board < 36
        then 4 * l + (if nB = 2 ∧ i = 1 then 2 else i) + board + 1 else 37)) := by
  unfold boardBin
  rw [linepos_eq, yaxis_FindBin_quarter, xaxis_FindBin_colpos c hc]

theorem nBoard_le (rpcLine colId : ℤ) : nBoard rpcLine colId ≤ 4 := by
  unfold nBoard
  split_ifs <;> omega

theorem nBoard_pos (rpcLine colId : ℤ) : 1 ≤ nBoard rpcLine colId := by
  unfold nBoard
  split_ifs <;> omega

theorem nBoard_last_line (colId : ℤ) : nBoard 8 colId = 4 := by
  simp [nBoard]

theorem boardBinInRange_iff (b : ℕ × ℕ) :
    boardBinInRange b ↔ (1 ≤ b.1 ∧ b.1 ≤ 14) ∧ (1 ≤ b.2 ∧ b.2 ≤ 36) := Iff.rfl

/-- Counterexample to claim C8. For a chamber-0 hit on line 8, column 0 (a 4-board cell) and
pattern index 1, the fourth of the four generated positions has y = 9.01, above the
y-range [0,9] of the board-occupancy grid: its bin is not an in-range bin. -/
theorem boardFills_out_of_range :
    nBoard 8 0 = 4 ∧
    (colpos 0 true, linepos 8 4 1 3) ∈ boardFills 8 0 true 1 ∧
    linepos 8 4 1 3 = 901 / 100 ∧
    ¬ boardBinInRange (boardBin (colpos 0 true, linepos 8 4 1 3)) := by
  have hn : nBoard 8 0 = 4 := nBoard_last_line 0
  refine ⟨hn, ?_, ?_, ?_⟩
  · unfold boardFills
    rw [hn]
    exact List.mem_map.mpr ⟨3, by simp, rfl⟩
  · norm_num [linepos]
  · have h := boardBin_fill 8 0 (by norm_num) true 4 1 3
    simp only [Nat.cast_ofNat, Nat.cast_zero] at h
    rw [h, boardBinInRange_iff]
    norm_num

/-- Claim C8, amended. For a chamber-0 hit with line 0..8 and column 0..6 and a non-zero
bending pattern index `i` in 0..3 the fan-out produces exactly `nBoard` positions, with
`nBoard` = 4 if line is 0 or 8 or column is 6, else 1 if (line is 3 or 5 and column is 0) or
(line is 3, 4 or 5 and column is 1 or 2), else 2. On the lines 0..7, and on line 8 for
pattern index 0, these positions fall in `nBoard` pairwise distinct in-range bins of the
board-occupancy grid; on line 8 the positions with `i + board >= 4` lie above the y-range. -/
theorem boardFills_bins (rpcLine colId : ℤ) (hl : 0 ≤ rpcLine ∧ rpcLine ≤ 8)
    (hc : 0 ≤ colId ∧ colId ≤ 6) (isRightSide : Bool) (i : ℕ) (hi : i < 4) :
    (boardFills rpcLine colId isRightSide i).length = nBoard rpcLine colId ∧
    nBoard rpcLine colId =
      (if rpcLine = 0 ∨ rpcLine = 8 ∨ colId = 6 then 4
       else if ((rpcLine = 3 ∨ rpcLine = 5) ∧ colId = 0) ∨
          ((rpcLine = 3 ∨ rpcLine = 4 ∨ rpcLine = 5) ∧ (colId = 1 ∨ colId = 2)) then 1
       else 2) ∧
    (rpcLine ≤ 7 ∨ i = 0 →
      ((boardFills rpcLine colId isRightSide i).map boardBin).Nodup ∧
      ∀ pt ∈ boardFills rpcLine colId isRightSide i, boardBinInRange (boardBin pt)) ∧
    (rpcLine = 8 → ∀ board < nBoard rpcLine colId, 4 ≤ i + board →
      ¬ boardBinInRange (boardBin (colpos colId isRightSide,
          linepos rpcLine (nBoard rpcLine colId) i board))) := by
  obtain ⟨l, rfl⟩ := Int.eq_ofNat_of_zero_le hl.1
  obtain ⟨c, rfl⟩ := Int.eq_ofNat_of_zero_le hc.1
  have hl8 : l ≤ 8 := by omega
  have hc6 : c ≤ 6 := by omega
  have hnb := nBoard_le (l : ℤ) (c : ℤ)
  refine ⟨by simp [boardFills], ?_, ?_, ?_⟩
  · unfold nBoard
    split_ifs <;> first | rfl | omega
  · intro hcase
    have hoff : (if nBoard (l : ℤ) (c : ℤ) = 2 ∧ i = 1 then 2 else i) ≤ 3 := by
      split_ifs <;> omega
    have hlt : ∀ board < nBoard (l : ℤ) (c : ℤ),
        4 * l + (if nBoard (l : ℤ) (c : ℤ) = 2 ∧ i = 1 then 2 else i) + board < 36 := by
      intro board hb
      rcases hcase with h7 | h0
      · have : l ≤ 7 := by omega
        omega
      · subst h0
        have h0 : (if nBoard (l : ℤ) (c : ℤ) = 2 ∧ (0 : ℕ) = 1 then 2 else 0) = 0 := by simp
        rw [h0]
        omega
    constructor
    · unfold boardFills
      rw [List.map_map]
      refine List.Nodup.map_on ?_ (List.nodup_range _)
      intro a ha b hb hab
      rw [List.mem_range] at ha hb
      simp only [Function.comp_apply, boardBin_fill l c hc6, hlt a ha, hlt b hb, if_true,
        Prod.mk.injEq, true_and] at hab
      omega
    · intro pt hpt
      unfold boardFills at hpt
      obtain ⟨board, hb, rfl⟩ := List.mem_map.mp hpt
      rw [List.mem_range] at hb
      have hlt1 := hlt board hb
      rw [boardBin_fill l c hc6, boardBinInRange_iff, if_pos hlt1]
      cases isRightSide <;> simp <;> omega
  · intro h8 board hb hib
    have hl : l = 8 := by omega
    subst hl
    have hn : nBoard ((8 : ℕ) : ℤ) (c : ℤ) = 4 := nBoard_last_line _
    have hoff : (if (4 : ℕ) = 2 ∧ i = 1 then 2 else i) = i := by simp
    have hge : ¬ (4 * 8 + i + board < 36) := by omega
    rw [boardBin_fill 8 c hc6, boardBinInRange_iff, hn, hoff, if_neg hge]
    omega

/-- Witness of `boardFills_bins` on line 3, column 1 (a 1-board cell), pattern index 2. -/
theorem boardFills_bins_witness :
    (boardFills 3 1 false 2).length = nBoard 3 1 ∧
    ((3 : ℤ) ≤ 7 ∨ (2 : ℕ) = 0 →
      ((boardFills 3 1 false 2).map boardBin).Nodup ∧
      ∀ pt ∈ boardFills 3 1 false 2, boardBinInRange (boardBin pt)) :=
  ⟨(boardFills_bins 3 1 (by norm_num) (by norm_num) false 2 (by norm_num)).1,
   (boardFills_bins 3 1 (by norm_num) (by norm_num) false 2 (by norm_num)).2.2.1⟩

/-- The fills of one chamber-0 hit: the fan-outs of its non-zero bending patterns in turn. -/
theorem digitBoardFills_chamber_zero (G : DetParams) (digit : ColumnData)
    (hch : G.getChamber (digit.deId : ℤ) = 0) :
    digitBoardFills G digit =
      (if (digit.patterns 0).val ≠ 0 then
          boardFills (G.getRPCLine digit.deId) digit.columnId (G.isRightSide digit.deId) 0
        else []) ++
      (if (digit.patterns 1).val ≠ 0 then
          boardFills (G.getRPCLine digit.deId) digit.columnId (G.isRightSide digit.deId) 1
        else []) ++
      (if (digit.patterns 2).val ≠ 0 then
          boardFills (G.getRPCLine digit.deId) digit.columnId (G.isRightSide digit.deId) 2
        else []) ++
      (if (digit.patterns 3).val ≠ 0 then
          boardFills (G.getRPCLine digit.deId) digit.columnId (G.isRightSide digit.deId) 3
        else []) := by
  have e : List.finRange 4 = [0, 1, 2, 3] := by decide
  unfold digitBoardFills
  simp only [e, List.foldl_cons, List.foldl_nil, hch, if_true]
  have c0 : Fin.castLE (by decide : 4 ≤ 5) (0 : Fin 4) = (0 : Fin 5) := rfl
  have c1 : Fin.castLE (by decide : 4 ≤ 5) (1 : Fin 4) = (1 : Fin 5) := rfl
  have c2 : Fin.castLE (by decide : 4 ≤ 5) (2 : Fin 4) = (2 : Fin 5) := rfl
  have c3 : Fin.castLE (by decide : 4 ≤ 5) (3 : Fin 4) = (3 : Fin 5) := rfl
  have v2 : ((2 : Fin 4) : ℕ) = 2 := rfl
  have v3 : ((3 : Fin 4) : ℕ) = 3 := rfl
  rw [c0, c1, c2, c3]
  by_cases h0 : (digit.patterns 0).val = 0 <;> by_cases h1 : (digit.patterns 1).val = 0 <;>
    by_cases h2 : (digit.patterns 2).val = 0 <;> by_cases h3 : (digit.patterns 3).val = 0 <;>
    simp [h0, h1, h2, h3, v2, v3]

/-- Counterexample to claim C9. A chamber-0 hit on line 0, column 0 (a 4-board cell), right
side, with the bending patterns 0 and 1 non-zero, fills eight points; the point of
(pattern 0, board 1) and the point of (pattern 1, board 0) both have y = 0.26 and fall in
the same bin (8, 2) of the board-occupancy grid. -/
theorem boardFills_collide :
    digitBoardFills Sample.detparams Sample.digitTwoPatterns =
      boardFills 0 0 true 0 ++ boardFills 0 0 true 1 ∧
    nBoard 0 0 = 4 ∧
    linepos 0 (nBoard 0 0) 0 1 = 26 / 100 ∧ linepos 0 (nBoard 0 0) 1 0 = 26 / 100 ∧
    boardBin (colpos 0 true, linepos 0 (nBoard 0 0) 0 1) = (8, 2) ∧
    boardBin (colpos 0 true, linepos 0 (nBoard 0 0) 1 0) = (8, 2) ∧
    boardBinInRange (8, 2) := by
  have hn : nBoard 0 0 = 4 := by simp [nBoard]
  have b1 := boardBin_fill 0 0 (by norm_num) true 4 0 1
  have b2 := boardBin_fill 0 0 (by norm_num) true 4 1 0
  simp only [Nat.cast_zero] at b1 b2
  refine ⟨?_, hn, ?_, ?_, ?_, ?_, ?_⟩
  · have hch : Sample.detparams.getChamber (Sample.digitTwoPatterns.deId : ℤ) = 0 := by
      simp [Sample.detparams, Sample.digitTwoPatterns]
    have p0 : ((Sample.digitTwoPatterns.patterns 0).val ≠ 0) := by decide
    have p1 : ((Sample.digitTwoPatterns.patterns 1).val ≠ 0) := by decide
    have p2 : ¬ ((Sample.digitTwoPatterns.patterns 2).val ≠ 0) := by decide
    have p3 : ¬ ((Sample.digitTwoPatterns.patterns 3).val ≠ 0) := by decide
    rw [digitBoardFills_chamber_zero _ _ hch, if_pos p0, if_pos p1, if_neg p2, if_neg p3]
    simp [Sample.detparams, Sample.digitTwoPatterns]
  · rw [hn]; norm_num [linepos]
  · rw [hn]; norm_num [linepos]
  · rw [hn, b1]; norm_num
  · rw [hn, b2]; norm_num
  · rw [boardBinInRange_iff]; norm_num

/-- Claim C9, amended. For a chamber-0 hit (line 0..8, column 0..6, either side) the point
generated for pattern index `i` and board index `board` lies, when it is in range, in the
y-bin of quarter-line slot `4 * line + s(i) + board`, where `s(i) = i` except `s(1) = 2` in
a 2-board cell. Hence two in-range points of one pattern index and different board indices
fall in different bins, and two in-range points of the pairs `(i, board)` and `(j, board2)`
fall in the same bin exactly when `s(i) + board = s(j) + board2`. -/
theorem boardFills_distinct (rpcLine colId : ℤ) (hl : 0 ≤ rpcLine ∧ rpcLine ≤ 8)
    (hc : 0 ≤ colId ∧ colId ≤ 6) (isRightSide : Bool) (i j board board2 : ℕ)
    (hin : boardBinInRange (boardBin (colpos colId isRightSide,
      linepos rpcLine (nBoard rpcLine colId) i board)))
    (hin2 : boardBinInRange (boardBin (colpos colId isRightSide,
      linepos rpcLine (nBoard rpcLine colId) j board2))) :
    (i = j → board ≠ board2 →
      boardBin (colpos colId isRightSide, linepos rpcLine (nBoard rpcLine colId) i board) ≠
      boardBin (colpos colId isRightSide, linepos rpcLine (nBoard rpcLine colId) j board2)) ∧
    (boardBin (colpos colId isRightSide, linepos rpcLine (nBoard rpcLine colId) i board) =
      boardBin (colpos colId isRightSide, linepos rpcLine (nBoard rpcLine colId) j board2) ↔
      (if nBoard rpcLine colId = 2 ∧ i = 1 then 2 else i) + board =
        (if nBoard rpcLine colId = 2 ∧ j = 1 then 2 else j) + board2) := by
  obtain ⟨l, rfl⟩ := Int.eq_ofNat_of_zero_le hl.1
  obtain ⟨c, rfl⟩ := Int.eq_ofNat_of_zero_le hc.1
  have hc6 : c ≤ 6 := by omega
  have key : boardBin (colpos (c : ℤ) isRightSide,
        linepos (l : ℤ) (nBoard (l : ℤ) (c : ℤ)) i board) =
      boardBin (colpos (c : ℤ) isRightSide,
        linepos (l : ℤ) (nBoard (l : ℤ) (c : ℤ)) j board2) ↔
      (if nBoard (l : ℤ) (c : ℤ) = 2 ∧ i = 1 then 2 else i) + board =
        (if nBoard (l : ℤ) (c : ℤ) = 2 ∧ j = 1 then 2 else j) + board2 := by
    rw [boardBin_fill l c hc6, boardBinInRange_iff] at hin hin2
    rw [boardBin_fill l c hc6, boardBin_fill l c hc6]
    generalize (if nBoard (l : ℤ) (c : ℤ) = 2 ∧ i = 1 then 2 else i) = si at *
    generalize (if nBoard (l : ℤ) (c : ℤ) = 2 ∧ j = 1 then 2 else j) = sj at *
    have h1 : 4 * l + si + board < 36 := by
      by_contra h
      rw [if_neg h] at hin
      omega
    have h2 : 4 * l + sj + board2 < 36 := by
      by_contra h
      rw [if_neg h] at hin2
      omega
    rw [if_pos h1, if_pos h2]
    simp only [Prod.mk.injEq, true_and]
    omega
  refine ⟨?_, key⟩
  intro hij hb heq
  have h := key.mp heq
  subst hij
  omega

/-- Witness of `boardFills_distinct` on line 0, column 0: the in-range points of
(pattern 0, board 1) and (pattern 0, board 2). -/
theorem boardFills_distinct_witness :
    boardBinInRange (boardBin (colpos 0 true, linepos 0 (nBoard 0 0) 0 1)) ∧
    boardBinInRange (boardBin (colpos 0 true, linepos 0 (nBoard 0 0) 0 2)) ∧
    boardBin (colpos 0 true, linepos 0 (nBoard 0 0) 0 1) ≠
      boardBin (colpos 0 true, linepos 0 (nBoard 0 0) 0 2) := by
  have hn : nBoard 0 0 = 4 := by simp [nBoard]
  have b1 := boardBin_fill 0 0 (by norm_num) true 4 0 1
  have b2 := boardBin_fill 0 0 (by norm_num) true 4 0 2
  simp only [Nat.cast_zero] at b1 b2
  have r1 : boardBinInRange (boardBin (colpos 0 true, linepos 0 (nBoard 0 0) 0 1)) := by
    rw [hn, b1, boardBinInRange_iff]; norm_num
  have r2 : boardBinInRange (boardBin (colpos 0 true, linepos 0 (nBoard 0 0) 0 2)) := by
    rw [hn, b2, boardBinInRange_iff]; norm_num
  exact ⟨r1, r2,
    (boardFills_distinct 0 0 (by norm_num) (by norm_num) true 0 0 1 2 r1 r2).1 rfl (by norm_num)⟩

/-! ### Hit counting -/

theorem and_two_pow_ne_zero (p k : ℕ) : p &&& 2 ^ k ≠ 0 ↔ p.testBit k = true := by
  constructor
  · intro h
    by_contra hb
    apply h
    apply Nat.eq_of_testBit_eq
    intro i
    rw [Nat.testBit_and, Nat.testBit_two_pow, Nat.zero_testBit]
    by_cases hki : k = i
    · subst hki; simp [hb]
    · simp [hki]
  · intro hb h
    have : (p &&& 2 ^ k).testBit k = true := by
      rw [Nat.testBit_and, Nat.testBit_two_pow_self, hb]; rfl
    rw [h, Nat.zero_testBit] at this
    exact Bool.false_ne_true this

/-- The mask loop of `countColumnDataHits` started at mask `2 ^ e` counts the set bits at
the positions `e, e - 1, ...`, one per iteration. -/
theorem maskLoop_count (p : ℕ) (l : List ℕ) :
    ∀ (c e m : ℕ), (l ≠ [] → m = 2 ^ e ∧ l.length ≤ e + 1) →
    (l.foldl (fun (st : ℕ × ℕ) (_ : ℕ) =>
        ((if p &&& st.2 ≠ 0 then st.1 + 1 else st.1), st.2 >>> 1)) (c, m)).1 =
      c + (List.range l.length).countP (fun t => p.testBit (e - t)) := by
  induction l with
  | nil => intro c e m _; simp
  | cons a l ih =>
    intro c e m h
    obtain ⟨hm, hlen⟩ := h (List.cons_ne_nil a l)
    subst hm
    rw [List.foldl_cons]
    have hstep : ∀ x : ℕ, (if p &&& 2 ^ e ≠ 0 then x + 1 else x) =
        x + if p.testBit e = true then 1 else 0 := by
      intro x
      by_cases hb : p.testBit e = true
      · rw [if_pos ((and_two_pow_ne_zero p e).mpr hb), if_pos hb]
      · rw [if_neg (fun hh => hb ((and_two_pow_ne_zero p e).mp hh)), if_neg hb]; rfl
    rw [ih (if p &&& 2 ^ e ≠ 0 then c + 1 else c) (e - 1) (2 ^ e >>> 1) ?_, hstep]
    · rw [List.length_cons, List.range_succ_eq_map, List.countP_cons, List.countP_map]
      have hf : ((fun t => p.testBit (e - t)) ∘ Nat.succ) = (fun t => p.testBit (e - 1 - t)) := by
        funext t
        simp only [Function.comp_apply, Nat.succ_eq_add_one]
        congr 1
        omega
      rw [hf]
      simp only [Nat.sub_zero]
      omega
    · intro hl
      have hpos : 0 < l.length := List.length_pos.mpr hl
      simp only [List.length_cons] at hlen
      refine ⟨?_, by omega⟩
      rw [Nat.shiftRight_eq_div_pow, pow_one]
      obtain ⟨e', rfl⟩ : ∃ e', e = e' + 1 := ⟨e - 1, by omega⟩
      rw [pow_succ]
      simp

/-- Number of set bits among the 16 bits of a pattern. -/
theorem countColumnDataHits_eq (digit : ColumnData) (id : Fin 5) :
    countColumnDataHits digit id =
      (List.range 16).countP (fun k => (digit.patterns id).val.testBit k) := by
  have hrev : (List.range 16).map (fun t => 15 - t) = (List.range 16).reverse := by decide
  have hcount : ∀ p : ℕ, (List.range 16).countP (fun t => p.testBit (15 - t)) =
      (List.range 16).countP (fun k => p.testBit k) := by
    intro p
    have h1 : (List.range 16).countP (fun t => p.testBit (15 - t)) =
        ((List.range 16).map (fun t => 15 - t)).countP (fun k => p.testBit k) := by
      rw [List.countP_map]; rfl
    rw [h1, hrev]
    exact (List.reverse_perm _).countP_eq _
  unfold countColumnDataHits
  by_cases hp : (digit.patterns id).val = 0
  · simp [hp]
  · simp only [ne_eq, hp, not_false_eq_true, if_true]
    have h := maskLoop_count (digit.patterns id).val (List.range 16) 0 15 32768
      (fun _ => ⟨by norm_num, by simp⟩)
    simp only [List.length_range, zero_add] at h
    rw [← hcount]
    exact h

theorem countColumnDataHits_le (digit : ColumnData) (id : Fin 5) :
    countColumnDataHits digit id ≤ 16 := by
  rw [countColumnDataHits_eq]
  have := List.countP_le_length (fun k => (digit.patterns id).val.testBit k) (l := List.range 16)
  simpa using this

theorem countColumnDataHits_eq_zero (digit : ColumnData) (id : Fin 5) :
    countColumnDataHits digit id = 0 ↔ (digit.patterns id).val = 0 := by
  constructor
  · intro h
    rw [countColumnDataHits_eq, List.countP_eq_zero] at h
    have hlt : (digit.patterns id).val < 2 ^ 16 := (digit.patterns id).isLt
    have hall : ∀ i, i ≥ 0 → (digit.patterns id).val.testBit i = false := by
      intro i _
      by_cases hi : i < 16
      · have := h i (List.mem_range.mpr hi)
        simpa using this
      · apply Nat.testBit_lt_two_pow
        exact lt_of_lt_of_le hlt (Nat.pow_le_pow_right (by norm_num) (by omega))
    have := Nat.lt_pow_two_of_testBit _ hall
    omega
  · intro h
    simp [countColumnDataHits, h]

theorem getBendingHits_eq (digit : ColumnData) :
    getBendingHits digit = countColumnDataHits digit 0 + countColumnDataHits digit 1 +
      countColumnDataHits digit 2 + countColumnDataHits digit 3 := by
  have e : List.finRange 4 = [0, 1, 2, 3] := by decide
  unfold getBendingHits
  simp only [e, List.foldl_cons, List.foldl_nil, zero_add]
  rfl

theorem getBendingHits_le (digit : ColumnData) : getBendingHits digit ≤ 64 := by
  rw [getBendingHits_eq]
  have h0 := countColumnDataHits_le digit 0
  have h1 := countColumnDataHits_le digit 1
  have h2 := countColumnDataHits_le digit 2
  have h3 := countColumnDataHits_le digit 3
  omega

/-- Running form of the loop of `getROFSize`: from index `s`, over `n` records inside the
span, starting from the partial sums `acc`. -/
theorem getROFSize_loop (digits : List ColumnData) (n : ℕ) :
    ∀ (s : ℕ) (acc : ℕ × ℕ), s + n ≤ digits.length → acc.1 < 2 ^ 32 → acc.2 < 2 ^ 32 →
    (List.range' s n).foldlM
      (fun (acc : ℕ × ℕ) (i : ℕ) =>
        match digits[i]? with
        | some digit => some (u32 (acc.1 + getBendingHits digit),
                              u32 (acc.2 + getNonBendingHits digit))
        | none => none) acc =
      some (u32 (acc.1 + (((digits.drop s).take n).map getBendingHits).sum),
            u32 (acc.2 + (((digits.drop s).take n).map getNonBendingHits).sum)) := by
  induction n with
  | zero =>
    intro s acc _ h1 h2
    obtain ⟨a, b⟩ := acc
    simp only [List.range'_zero, List.foldlM_nil, List.take_zero, List.map_nil, List.sum_nil,
      Nat.add_zero, u32]
    rw [Nat.mod_eq_of_lt h1, Nat.mod_eq_of_lt h2]
    rfl
  | succ n ih =>
    intro s acc hs h1 h2
    have hlt : s < digits.length := by omega
    have hd : digits.drop s = digits[s] :: digits.drop (s + 1) := List.drop_eq_getElem_cons hlt
    rw [List.range'_succ, List.foldlM_cons, List.getElem?_eq_getElem hlt]
    simp only [Option.bind_eq_bind, Option.some_bind]
    rw [ih (s + 1) _ (by omega) (Nat.mod_lt _ (by norm_num)) (Nat.mod_lt _ (by norm_num)), hd]
    simp only [List.take_succ_cons, List.map_cons, List.sum_cons, u32]
    congr 2
    · rw [Nat.add_mod, Nat.mod_mod, ← Nat.add_mod]; ring_nf
    · rw [Nat.add_mod, Nat.mod_mod, ← Nat.add_mod]; ring_nf

theorem getROFSize_eq (rof : ROFRecord) (digits : List ColumnData)
    (hin : rof.firstEntry + rof.nEntries ≤ digits.length) :
    getROFSize rof digits =
      some (u32 ((((digits.drop rof.firstEntry).take rof.nEntries).map getBendingHits).sum),
            u32 ((((digits.drop rof.firstEntry).take rof.nEntries).map getNonBendingHits).sum))
    := by
  unfold getROFSize ROFRecord.getEndIndex
  rw [Nat.add_sub_cancel_left,
    getROFSize_loop digits rof.nEntries rof.firstEntry (0, 0) hin (by norm_num) (by norm_num)]
  simp only [Nat.zero_add]

theorem sum_map_le (f : ColumnData → ℕ) (b : ℕ) (hf : ∀ d, f d ≤ b) (l : List ColumnData) :
    (l.map f).sum ≤ b * l.length := by
  induction l with
  | nil => simp
  | cons d l ih =>
    have := hf d
    simp only [List.map_cons, List.sum_cons, List.length_cons]
    linarith [Nat.mul_succ b l.length]

theorem getROFSize_replicate (n : ℕ) (d : ColumnData) (ir : InteractionRecord) :
    getROFSize ⟨ir, 0, n⟩ (List.replicate n d) =
      some (u32 (n * getBendingHits d), u32 (n * getNonBendingHits d)) := by
  rw [getROFSize_eq _ _ (by simp)]
  simp

theorem getBendingHits_digitFull : getBendingHits Sample.digitFull = 64 := by decide

theorem getNonBendingHits_digitFull : getNonBendingHits Sample.digitFull = 16 := by decide

/-- Counterexample to claim C10. A frame covering a batch of `2 ^ 26 = 67108864` records
that each have all strips fired holds `2 ^ 32` bending hits; the `uint32_t` sum of
`getROFSize` wraps and the returned bending count is `0`. -/
theorem getROFSize_wraps :
    (0 : ℕ) + 67108864 ≤ (List.replicate 67108864 Sample.digitFull).length ∧
    ((List.replicate 67108864 Sample.digitFull).map getBendingHits).sum = 4294967296 ∧
    getROFSize ⟨⟨0, 0⟩, 0, 67108864⟩ (List.replicate 67108864 Sample.digitFull) =
      some (0, 1073741824) := by
  refine ⟨?_, ?_, ?_⟩
  · rw [List.length_replicate]
  · rw [List.map_replicate, List.sum_replicate, getBendingHits_digitFull, smul_eq_mul]
  · rw [getROFSize_replicate, getBendingHits_digitFull, getNonBendingHits_digitFull]
    rfl

/-- Claim C10, amended. `countColumnDataHits` returns the number of set bits among the 16
bits of `patterns[id]` (a value in 0..16, and 0 iff the pattern is 0); `getBendingHits` is
the sum of that count over the pattern indices 0..3 and `getNonBendingHits` the count of
pattern index 4; and for a frame whose range lies inside the batch `getROFSize` returns the
pair (sum of bending hits, sum of non-bending hits) over the records of the range, each sum
taken modulo `2 ^ 32`: the sums themselves for a frame of fewer than `2 ^ 26` records, and
(0, 0) for an empty range. -/
theorem hit_counts (digit : ColumnData) (id : Fin 5) (rof : ROFRecord)
    (digits : List ColumnData) (hin : rof.firstEntry + rof.nEntries ≤ digits.length) :
    (countColumnDataHits digit id =
        (List.range 16).countP (fun k => (digit.patterns id).val.testBit k) ∧
      countColumnDataHits digit id ≤ 16 ∧
      (countColumnDataHits digit id = 0 ↔ (digit.patterns id).val = 0)) ∧
    (getBendingHits digit = countColumnDataHits digit 0 + countColumnDataHits digit 1 +
        countColumnDataHits digit 2 + countColumnDataHits digit 3 ∧
      getNonBendingHits digit = countColumnDataHits digit 4) ∧
    getROFSize rof digits =
      some (((((digits.drop rof.firstEntry).take rof.nEntries).map getBendingHits).sum) % 2 ^ 32,
        ((((digits.drop rof.firstEntry).take rof.nEntries).map getNonBendingHits).sum) % 2 ^ 32)
      ∧
    (rof.nEntries < 2 ^ 26 → getROFSize rof digits =
      some ((((digits.drop rof.firstEntry).take rof.nEntries).map getBendingHits).sum,
        (((digits.drop rof.firstEntry).take rof.nEntries).map getNonBendingHits).sum)) ∧
    (rof.nEntries = 0 → getROFSize rof digits = some (0, 0)) := by
  have hmain := getROFSize_eq rof digits hin
  refine ⟨⟨countColumnDataHits_eq digit id, countColumnDataHits_le digit id,
    countColumnDataHits_eq_zero digit id⟩, ⟨getBendingHits_eq digit, rfl⟩, hmain, ?_, ?_⟩
  · intro hn
    have hlen : ((digits.drop rof.firstEntry).take rof.nEntries).length ≤ rof.nEntries :=
      List.length_take_le _ _
    have hB := sum_map_le getBendingHits 64 getBendingHits_le
      ((digits.drop rof.firstEntry).take rof.nEntries)
    have hNB := sum_map_le getNonBendingHits 16 (fun d => countColumnDataHits_le d 4)
      ((digits.drop rof.firstEntry).take rof.nEntries)
    have h1 : (((digits.drop rof.firstEntry).take rof.nEntries).map getBendingHits).sum
        < 2 ^ 32 := by
      have : 64 * ((digits.drop rof.firstEntry).take rof.nEntries).length ≤ 64 * rof.nEntries :=
        Nat.mul_le_mul_left _ hlen
      omega
    have h2 : (((digits.drop rof.firstEntry).take rof.nEntries).map getNonBendingHits).sum
        < 2 ^ 32 := by
      have : 16 * ((digits.drop rof.firstEntry).take rof.nEntries).length ≤ 16 * rof.nEntries :=
        Nat.mul_le_mul_left _ hlen
      omega
    rw [hmain]
    simp only [u32, Nat.mod_eq_of_lt h1, Nat.mod_eq_of_lt h2]
  · intro h0
    rw [hmain, h0]
    simp [u32]

/-- Witness of `hit_counts`: a frame of two records out of a batch of three. -/
theorem hit_counts_witness :
    (1 : ℕ) + 2 ≤ [Sample.digitSmall, Sample.digitFull, Sample.digitSmall].length ∧
    getROFSize ⟨⟨0, 0⟩, 1, 2⟩ [Sample.digitSmall, Sample.digitFull, Sample.digitSmall] =
      some (((([Sample.digitSmall, Sample.digitFull, Sample.digitSmall].drop 1).take 2).map
          getBendingHits).sum,
        ((([Sample.digitSmall, Sample.digitFull, Sample.digitSmall].drop 1).take 2).map
          getNonBendingHits).sum) :=
  ⟨by decide,
    (hit_counts Sample.digitSmall 0 ⟨⟨0, 0⟩, 1, 2⟩
      [Sample.digitSmall, Sample.digitFull, Sample.digitSmall] (by decide)).2.2.2.1
      (by norm_num)⟩

/-! ### The frame loop -/

theorem differenceInBC_eq (a b : InteractionRecord) :
    a.differenceInBC b = a.toLong - b.toLong := by
  unfold InteractionRecord.differenceInBC InteractionRecord.toLong
  by_cases h : a.orbit = b.orbit
  · simp only [h, ne_eq, not_true_eq_false, if_false]; ring
  · simp only [ne_eq, h, not_false_eq_true, if_true]; ring

theorem getROFSize_total (rof : ROFRecord) (digits : List ColumnData)
    (hin : rof.firstEntry + rof.nEntries ≤ digits.length) :
    ∃ sz, getROFSize rof digits = some sz ∧ u32 (sz.1 + sz.2) = frameHits digits rof % 2 ^ 32 := by
  refine ⟨_, getROFSize_eq rof digits hin, ?_⟩
  simp only [u32, frameHits, frameRecords]
  rw [← Nat.add_mod]

/-- The sample filled for a frame `cur` that follows the frame `prev`. -/
theorem frameLoop_succ (digits : List ColumnData) (rofs : List ROFRecord) :
    ∀ (prev : ROFRecord) (prevSize : ℕ × ℕ) (i : ℕ) (out : FrameFills), 0 < i →
    u32 (prevSize.1 + prevSize.2) = frameHits digits prev % 2 ^ 32 →
    (∀ rof ∈ rofs, rof.firstEntry + rof.nEntries ≤ digits.length) →
    ∃ res, frameLoop digits rofs i prevSize prev.interactionRecord out = some res ∧
      res.timeDiff = out.timeDiff ++ List.zipWith
        (fun p c => (c.interactionRecord.toLong - p.interactionRecord.toLong,
          min (frameHits digits c % 2 ^ 32) (frameHits digits p % 2 ^ 32)))
        (prev :: rofs) rofs := by
  induction rofs with
  | nil =>
    intro prev prevSize i out _ _ _
    exact ⟨out, rfl, by simp⟩
  | cons r rest ih =>
    intro prev prevSize i out hi hprev hin
    obtain ⟨sz, hsz, htot⟩ := getROFSize_total r digits (hin r (List.mem_cons_self _ _))
    have hrest : ∀ rof ∈ rest, rof.firstEntry + rof.nEntries ≤ digits.length :=
      fun rof h => hin rof (List.mem_cons_of_mem _ h)
    unfold frameLoop
    simp only [hsz, hi, gt_iff_lt, if_true]
    obtain ⟨res, hres, htd⟩ := ih r sz (i + 1) _ (Nat.succ_pos i) htot hrest
    refine ⟨res, hres, ?_⟩
    rw [htd, List.zipWith_cons_cons, List.append_assoc, htot, hprev, differenceInBC_eq]
    congr 2
    · simp only [List.singleton_append, List.cons.injEq, Prod.mk.injEq, true_and, and_true]
      rw [min_def]
      split_ifs <;> omega

theorem zipWith_congr_mem {α β γ : Type} (f g : α → β → γ) :
    ∀ (l1 : List α) (l2 : List β), (∀ a ∈ l1, ∀ b ∈ l2, f a b = g a b) →
      List.zipWith f l1 l2 = List.zipWith g l1 l2 := by
  intro l1
  induction l1 with
  | nil => intro l2 _; simp
  | cons a l1 ih =>
    intro l2 h
    cases l2 with
    | nil => simp
    | cons b l2 =>
      rw [List.zipWith_cons_cons, List.zipWith_cons_cons,
        h a (List.mem_cons_self _ _) b (List.mem_cons_self _ _),
        ih l2 (fun x hx y hy => h x (List.mem_cons_of_mem _ hx) y (List.mem_cons_of_mem _ hy))]

theorem frameHits_le (digits : List ColumnData) (rof : ROFRecord) :
    frameHits digits rof ≤ 80 * rof.nEntries := by
  have hlen : (frameRecords digits rof).length ≤ rof.nEntries := List.length_take_le _ _
  have hB := sum_map_le getBendingHits 64 getBendingHits_le (frameRecords digits rof)
  have hNB := sum_map_le getNonBendingHits 16 (fun d => countColumnDataHits_le d 4)
    (frameRecords digits rof)
  unfold frameHits
  have h1 : 64 * (frameRecords digits rof).length ≤ 64 * rof.nEntries :=
    Nat.mul_le_mul_left _ hlen
  have h2 : 16 * (frameRecords digits rof).length ≤ 16 * rof.nEntries :=
    Nat.mul_le_mul_left _ hlen
  omega

/-- The time-difference samples of a batch whose frames lie inside the batch. -/
theorem monitorFrames_samples (rofs : List ROFRecord) (digits : List ColumnData)
    (hin : ∀ rof ∈ rofs, rof.firstEntry + rof.nEntries ≤ digits.length) :
    ∃ out, monitorFrames rofs digits = some out ∧
      out.timeDiff = List.zipWith
        (fun p c => (c.interactionRecord.toLong - p.interactionRecord.toLong,
          min (frameHits digits c % 2 ^ 32) (frameHits digits p % 2 ^ 32)))
        rofs rofs.tail := by
  cases rofs with
  | nil => exact ⟨⟨[], [], []⟩, rfl, rfl⟩
  | cons r rest =>
    obtain ⟨sz, hsz, htot⟩ := getROFSize_total r digits (hin r (List.mem_cons_self _ _))
    have hrest : ∀ rof ∈ rest, rof.firstEntry + rof.nEntries ≤ digits.length :=
      fun rof h => hin rof (List.mem_cons_of_mem _ h)
    obtain ⟨res, hres, htd⟩ := frameLoop_succ digits rest r sz 1
      ⟨[] ++ [sz.1], [] ++ [sz.2], []⟩ Nat.one_pos htot hrest
    refine ⟨res, ?_, ?_⟩
    · unfold monitorFrames frameLoop
      simp only [hsz, gt_iff_lt, lt_self_iff_false, if_false]
      exact hres
    · rw [htd]
      simp

theorem frameHits_replicate (N s n : ℕ) (d : ColumnData) (ir : InteractionRecord) :
    frameHits (List.replicate N d) ⟨ir, s, n⟩ =
      min n (N - s) * (getBendingHits d + getNonBendingHits d) := by
  simp [frameHits, frameRecords, List.take_replicate, List.drop_replicate, Nat.mul_add]

/-- Counterexample to claim C7. In a batch of `2 ^ 25 + 2 ^ 26` records that each have all
strips fired, a first frame of `2 ^ 25` records holds 2684354560 hits and the following frame
of `2 ^ 26` records holds 5368709120 hits; the sample filled for the second frame is
(50, 1073741824), the second total having wrapped in `uint32_t`, and not (50, 2684354560). -/
theorem monitorFrames_total_wraps :
    frameHits (List.replicate 100663296 Sample.digitFull) ⟨⟨0, 0⟩, 0, 33554432⟩
      = 2684354560 ∧
    frameHits (List.replicate 100663296 Sample.digitFull) ⟨⟨50, 0⟩, 33554432, 67108864⟩
      = 5368709120 ∧
    ∃ out, monitorFrames [⟨⟨0, 0⟩, 0, 33554432⟩, ⟨⟨50, 0⟩, 33554432, 67108864⟩]
        (List.replicate 100663296 Sample.digitFull) = some out ∧
      out.timeDiff = [(50, 1073741824)] := by
  have h0 : frameHits (List.replicate 100663296 Sample.digitFull) ⟨⟨0, 0⟩, 0, 33554432⟩
      = 2684354560 := by
    rw [frameHits_replicate, getBendingHits_digitFull, getNonBendingHits_digitFull]
    rfl
  have h1 : frameHits (List.replicate 100663296 Sample.digitFull)
      ⟨⟨50, 0⟩, 33554432, 67108864⟩ = 5368709120 := by
    rw [frameHits_replicate, getBendingHits_digitFull, getNonBendingHits_digitFull]
    rfl
  refine ⟨h0, h1, ?_⟩
  have hin : ∀ rof ∈ [(⟨⟨0, 0⟩, 0, 33554432⟩ : ROFRecord), ⟨⟨50, 0⟩, 33554432, 67108864⟩],
      rof.firstEntry + rof.nEntries ≤ (List.replicate 100663296 Sample.digitFull).length := by
    intro rof hrof
    rw [List.length_replicate]
    simp only [List.mem_cons, List.mem_singleton, List.not_mem_nil, or_false] at hrof
    rcases hrof with rfl | rfl <;> decide
  obtain ⟨out, hout, htd⟩ := monitorFrames_samples _ _ hin
  refine ⟨out, hout, ?_⟩
  rw [htd, List.tail_cons, List.zipWith_cons_cons, List.zipWith_nil_right, h0, h1]
  decide

/-- Claim C7, amended. For every batch of n frames lying inside the batch, the
time-difference-vs-min-size distribution receives exactly max(n-1, 0) samples: the first
frame contributes none, and each frame k >= 1 contributes exactly one sample at
(timeRef_k - timeRef_(k-1), min(total_k, total_(k-1))), where total is the frame's bending
plus non-bending hit count taken modulo `2 ^ 32`, which is that count itself for frames of
fewer than `2 ^ 25` records; frames with equal time-references give time difference 0. -/
theorem monitorFrames_timeDiff (rofs : List ROFRecord) (digits : List ColumnData)
    (hin : ∀ rof ∈ rofs, rof.firstEntry + rof.nEntries ≤ digits.length) :
    ∃ out, monitorFrames rofs digits = some out ∧
      out.timeDiff.length = max (rofs.length - 1) 0 ∧
      out.timeDiff = List.zipWith
        (fun p c => (c.interactionRecord.toLong - p.interactionRecord.toLong,
          min (frameHits digits c % 2 ^ 32) (frameHits digits p % 2 ^ 32)))
        rofs rofs.tail ∧
      ((∀ rof ∈ rofs, rof.nEntries < 2 ^ 25) →
        out.timeDiff = List.zipWith
          (fun p c => (c.interactionRecord.toLong - p.interactionRecord.toLong,
            min (frameHits digits c) (frameHits digits p)))
          rofs rofs.tail) ∧
      (∀ k (hk : k < out.timeDiff.length) (hk1 : k + 1 < rofs.length),
        (rofs.get ⟨k + 1, hk1⟩).interactionRecord =
          (rofs.get ⟨k, Nat.lt_of_succ_lt hk1⟩).interactionRecord →
        (out.timeDiff.get ⟨k, hk⟩).1 = 0) ∧
      (∀ r0 r1 : ROFRecord, rofs = [r0, r1] → frameHits digits r0 = 10 →
        frameHits digits r1 = 4 →
        r1.interactionRecord.toLong - r0.interactionRecord.toLong = 50 →
        out.timeDiff = [(50, 4)]) := by
  obtain ⟨out, hout, htd⟩ := monitorFrames_samples rofs digits hin
  refine ⟨out, hout, ?_, htd, ?_, ?_, ?_⟩
  rotate_right
  · intro r0 r1 hr h0 h1 hgap
    rw [htd, hr, List.tail_cons, List.zipWith_cons_cons, List.zipWith_nil_right, h0, h1, hgap]
    rfl
  · rw [htd, List.length_zipWith, List.length_tail]
    omega
  · intro hsmall
    rw [htd]
    apply zipWith_congr_mem
    intro a ha b hb
    have hb2 : b ∈ rofs := List.mem_of_mem_tail hb
    have h1 := frameHits_le digits a
    have h2 := frameHits_le digits b
    have h3 := hsmall a ha
    have h4 := hsmall b hb2
    rw [Nat.mod_eq_of_lt (by omega), Nat.mod_eq_of_lt (by omega)]
  · intro k hk hk1 heq
    have hk2 : k < rofs.tail.length := by rw [List.length_tail]; omega
    have hget : out.timeDiff.get ⟨k, hk⟩ =
        ((rofs.tail.get ⟨k, hk2⟩).interactionRecord.toLong -
            (rofs.get ⟨k, Nat.lt_of_succ_lt hk1⟩).interactionRecord.toLong,
          min (frameHits digits (rofs.tail.get ⟨k, hk2⟩) % 2 ^ 32)
            (frameHits digits (rofs.get ⟨k, Nat.lt_of_succ_lt hk1⟩) % 2 ^ 32)) := by
      simp only [List.get_eq_getElem, htd, List.getElem_zipWith]
    have htail : rofs.tail.get ⟨k, hk2⟩ = rofs.get ⟨k + 1, hk1⟩ := by
      simp only [List.get_eq_getElem, List.getElem_tail]
    rw [hget, htail, heq]
    simp

/-- Witness of `monitorFrames_timeDiff`: two frames of sizes 10 and 4 whose time-references
are 50 bunch crossings apart give exactly one sample, at (50, 4). -/
theorem monitorFrames_timeDiff_witness :
    (∀ rof ∈ Sample.twoFrames,
      rof.firstEntry + rof.nEntries ≤ [Sample.digitTen, Sample.digitFour].length) ∧
    ∃ out, monitorFrames Sample.twoFrames [Sample.digitTen, Sample.digitFour] = some out ∧
      out.timeDiff.length = 1 ∧ out.timeDiff = [(50, 4)] := by
  have hin : ∀ rof ∈ Sample.twoFrames,
      rof.firstEntry + rof.nEntries ≤ [Sample.digitTen, Sample.digitFour].length := by
    decide
  obtain ⟨out, hout, hlen, _, _, _, hsc⟩ :=
    monitorFrames_timeDiff Sample.twoFrames [Sample.digitTen, Sample.digitFour] hin
  exact ⟨hin, out, hout, hlen, hsc _ _ rfl (by decide) (by decide) (by decide)⟩

/-! ### Copy construction -/

namespace RatioObject

theorem load_some {S : Store} {o : RatioObject} {m : MergeableTH2Ratio}
    (h : o.load S = some m) :
    S[o.mHistoNum]? = some m.mHistoNum ∧ S[o.mHistoDen]? = some m.mHistoDen ∧
    m.base = o.base ∧ m.mScalingFactor = o.mScalingFactor := by
  unfold load at h
  split at h
  · next num den h1 h2 =>
    cases h
    exact ⟨h1, h2, rfl, rfl⟩
  · cases h

theorem load_lt {S : Store} {o : RatioObject} {m : MergeableTH2Ratio}
    (h : o.load S = some m) : o.mHistoNum < S.length ∧ o.mHistoDen < S.length := by
  obtain ⟨h1, h2, _, _⟩ := load_some h
  constructor
  · by_contra hl
    rw [List.getElem?_eq_none (by omega)] at h1
    cases h1
  · by_contra hl
    rw [List.getElem?_eq_none (by omega)] at h2
    cases h2

/-- A mutation keeps the pointers of the object and writes through them only. -/
theorem mutate_frame (R : Rounding) (S S2 : Store) (o o2 : RatioObject) (μ : Mutation)
    (h : mutate R S o μ = some (S2, o2)) :
    o2.mHistoNum = o.mHistoNum ∧ o2.mHistoDen = o.mHistoDen ∧
    o2.mScalingFactor = o.mScalingFactor ∧ S2.length = S.length ∧
    ∀ p, p ≠ o.mHistoNum → p ≠ o.mHistoDen → S2[p]? = S[p]? := by
  cases μ with
  | fillNum x y w =>
    simp only [mutate] at h
    cases hS : S[o.mHistoNum]? with
    | none => rw [hS] at h; cases h
    | some hist =>
      rw [hS] at h
      cases h
      refine ⟨rfl, rfl, rfl, by simp, fun p hp _ => ?_⟩
      exact List.getElem?_set_ne (Ne.symm hp)
  | fillDen x y w =>
    simp only [mutate] at h
    cases hS : S[o.mHistoDen]? with
    | none => rw [hS] at h; cases h
    | some hist =>
      rw [hS] at h
      cases h
      refine ⟨rfl, rfl, rfl, by simp, fun p _ hp => ?_⟩
      exact List.getElem?_set_ne (Ne.symm hp)
  | merge other =>
    simp only [mutate] at h
    cases hm : o.load S with
    | none => rw [hm] at h; cases h
    | some m =>
      cases hb : other.load S with
      | none => rw [hm, hb] at h; cases h
      | some b =>
        rw [hm, hb] at h
        cases h
        refine ⟨rfl, rfl, rfl, by simp, fun p hp1 hp2 => ?_⟩
        rw [List.getElem?_set_ne (Ne.symm hp2), List.getElem?_set_ne (Ne.symm hp1)]

/-- A sequence of mutations keeps the pointers of the object and writes through them only. -/
theorem mutateAll_frame (R : Rounding) (μs : List Mutation) :
    ∀ (S S2 : Store) (o o2 : RatioObject), mutateAll R S o μs = some (S2, o2) →
    o2.mHistoNum = o.mHistoNum ∧ o2.mHistoDen = o.mHistoDen ∧
    o2.mScalingFactor = o.mScalingFactor ∧ S2.length = S.length ∧
    ∀ p, p ≠ o.mHistoNum → p ≠ o.mHistoDen → S2[p]? = S[p]? := by
  induction μs with
  | nil =>
    intro S S2 o o2 h
    cases h
    exact ⟨rfl, rfl, rfl, rfl, fun _ _ _ => rfl⟩
  | cons μ rest ih =>
    intro S S2 o o2 h
    simp only [mutateAll] at h
    cases h1 : mutate R S o μ with
    | none => rw [h1] at h; cases h
    | some r =>
      obtain ⟨S1, o1⟩ := r
      rw [h1] at h
      obtain ⟨a1, a2, a3, a4, a5⟩ := mutate_frame R S S1 o o1 μ h1
      obtain ⟨b1, b2, b3, b4, b5⟩ := ih S1 S2 o1 o2 h
      refine ⟨b1.trans a1, b2.trans a2, b3.trans a3, b4.trans a4, fun p hp1 hp2 => ?_⟩
      rw [b5 p (a1 ▸ hp1) (a2 ▸ hp2), a5 p hp1 hp2]

end RatioObject

namespace RatioObject

theorem load_of_lt (S : Store) (o : RatioObject) (h1 : o.mHistoNum < S.length)
    (h2 : o.mHistoDen < S.length) : ∃ m, o.load S = some m := by
  unfold load
  rw [List.getElem?_eq_getElem h1, List.getElem?_eq_getElem h2]
  exact ⟨_, rfl⟩

/-- A mutation of an object with valid pointers, by a valid operand, is carried out. -/
theorem mutate_isSome (R : Rounding) (S : Store) (o : RatioObject) (μ : Mutation)
    (h1 : o.mHistoNum < S.length) (h2 : o.mHistoDen < S.length) (hμ : μ.valid S) :
    ∃ S2 o2, mutate R S o μ = some (S2, o2) := by
  cases μ with
  | fillNum x y w =>
    simp only [mutate, List.getElem?_eq_getElem h1]
    exact ⟨_, _, rfl⟩
  | fillDen x y w =>
    simp only [mutate, List.getElem?_eq_getElem h2]
    exact ⟨_, _, rfl⟩
  | merge other =>
    obtain ⟨m, hm⟩ := load_of_lt S o h1 h2
    obtain ⟨b, hb⟩ := load_of_lt S other hμ.1 hμ.2
    simp only [mutate, hm, hb]
    exact ⟨_, _, rfl⟩

theorem Mutation.valid_of_length {S S2 : Store} (h : S2.length = S.length) (μ : Mutation)
    (hμ : μ.valid S) : μ.valid S2 := by
  cases μ with
  | fillNum x y w => trivial
  | fillDen x y w => trivial
  | merge other =>
    unfold Mutation.valid at hμ ⊢
    rw [h]
    exact hμ

/-- A sequence of valid mutations of an object with valid pointers is carried out. -/
theorem mutateAll_isSome (R : Rounding) (μs : List Mutation) :
    ∀ (S : Store) (o : RatioObject), o.mHistoNum < S.length → o.mHistoDen < S.length →
    (∀ μ ∈ μs, μ.valid S) → ∃ S2 o2, mutateAll R S o μs = some (S2, o2) := by
  induction μs with
  | nil => intro S o _ _ _; exact ⟨S, o, rfl⟩
  | cons μ rest ih =>
    intro S o h1 h2 hv
    obtain ⟨S1, o1, hstep⟩ := mutate_isSome R S o μ h1 h2 (hv μ (List.mem_cons_self _ _))
    obtain ⟨a1, a2, _, a4, _⟩ := mutate_frame R S S1 o o1 μ hstep
    obtain ⟨S2, o2, hrest⟩ := ih S1 o1 (by omega) (by omega)
      (fun ν hν => Mutation.valid_of_length a4 ν (hv ν (List.mem_cons_of_mem _ hν)))
    refine ⟨S2, o2, ?_⟩
    simp only [mutateAll, hstep]
    exact hrest

end RatioObject

namespace RatioObject

/-- Claim C5. Copy construction produces an independent accumulator: the copy has the shape,
the scaling factor and the numerator and denominator bin contents of the original, held in
two newly created histograms; every sequence of fills and merges applied to the copy is
carried out and leaves the numerator and denominator of the original unchanged, and every
such sequence applied to the original leaves those of the copy unchanged. -/
theorem copy_independent (R : Rounding) (S : Store) (o : RatioObject) (m : MergeableTH2Ratio)
    (hload : o.load S = some m) :
    ∃ S1 c, copy S o = some (S1, c) ∧
      (∃ mc, c.load S1 = some mc ∧
        mc.mHistoNum.sameShape m.mHistoNum ∧ mc.mHistoDen.sameShape m.mHistoDen ∧
        mc.base.sameShape m.mHistoNum ∧ mc.mScalingFactor = m.mScalingFactor ∧
        mc.mHistoNum.cells = m.mHistoNum.cells ∧ mc.mHistoDen.cells = m.mHistoDen.cells) ∧
      c.mHistoNum ≠ o.mHistoNum ∧ c.mHistoNum ≠ o.mHistoDen ∧
      c.mHistoDen ≠ o.mHistoNum ∧ c.mHistoDen ≠ o.mHistoDen ∧
      S1[o.mHistoNum]? = some m.mHistoNum ∧ S1[o.mHistoDen]? = some m.mHistoDen ∧
      (∀ μs : List Mutation, (∀ μ ∈ μs, μ.valid S1) →
        ∃ S2 c2, mutateAll R S1 c μs = some (S2, c2) ∧
          S2[o.mHistoNum]? = some m.mHistoNum ∧ S2[o.mHistoDen]? = some m.mHistoDen) ∧
      (∀ μs : List Mutation, (∀ μ ∈ μs, μ.valid S1) →
        ∃ S2 o2, mutateAll R S1 o μs = some (S2, o2) ∧
          S2[c.mHistoNum]? = S1[c.mHistoNum]? ∧ S2[c.mHistoDen]? = S1[c.mHistoDen]?) := by
  obtain ⟨hn, hd, _, _⟩ := load_some hload
  obtain ⟨ln, ld⟩ := load_lt hload
  have hcopy : copy S o = some
      (S ++ [(MergeableTH2Ratio.copy m).mHistoNum, (MergeableTH2Ratio.copy m).mHistoDen],
        ⟨(MergeableTH2Ratio.copy m).base, S.length, S.length + 1,
          (MergeableTH2Ratio.copy m).mScalingFactor⟩) := by
    simp only [copy, hload]
  have hlen : (S ++ [(MergeableTH2Ratio.copy m).mHistoNum,
      (MergeableTH2Ratio.copy m).mHistoDen]).length = S.length + 2 := by simp
  have hon : (S ++ [(MergeableTH2Ratio.copy m).mHistoNum,
      (MergeableTH2Ratio.copy m).mHistoDen])[o.mHistoNum]? = some m.mHistoNum := by
    rw [List.getElem?_append_left ln]; exact hn
  have hod : (S ++ [(MergeableTH2Ratio.copy m).mHistoNum,
      (MergeableTH2Ratio.copy m).mHistoDen])[o.mHistoDen]? = some m.mHistoDen := by
    rw [List.getElem?_append_left ld]; exact hd
  have hcn : (S ++ [(MergeableTH2Ratio.copy m).mHistoNum,
      (MergeableTH2Ratio.copy m).mHistoDen])[S.length]? =
      some (MergeableTH2Ratio.copy m).mHistoNum := by
    rw [List.getElem?_append_right (le_refl _)]; simp
  have hcd : (S ++ [(MergeableTH2Ratio.copy m).mHistoNum,
      (MergeableTH2Ratio.copy m).mHistoDen])[S.length + 1]? =
      some (MergeableTH2Ratio.copy m).mHistoDen := by
    rw [List.getElem?_append_right (by omega)]; simp
  refine ⟨_, _, hcopy, ⟨MergeableTH2Ratio.copy m, ?_, ⟨rfl, rfl⟩, ⟨rfl, rfl⟩, ⟨rfl, rfl⟩,
    rfl, rfl, rfl⟩, ?_, ?_, ?_, ?_, hon, hod, ?_, ?_⟩
  · simp only [load, hcn, hcd]
  · exact Nat.ne_of_gt ln
  · exact Nat.ne_of_gt ld
  · show S.length + 1 ≠ o.mHistoNum
    omega
  · show S.length + 1 ≠ o.mHistoDen
    omega
  · intro μs hv
    obtain ⟨S2, c2, hrun⟩ := mutateAll_isSome R μs _
      ⟨(MergeableTH2Ratio.copy m).base, S.length, S.length + 1,
        (MergeableTH2Ratio.copy m).mScalingFactor⟩
      (by rw [hlen]; show S.length < S.length + 2; omega)
      (by rw [hlen]; show S.length + 1 < S.length + 2; omega) hv
    obtain ⟨_, _, _, _, hframe⟩ := mutateAll_frame R μs _ _ _ _ hrun
    refine ⟨S2, c2, hrun, ?_, ?_⟩
    · rw [hframe o.mHistoNum (Nat.ne_of_lt ln) (by show o.mHistoNum ≠ S.length + 1; omega)]
      exact hon
    · rw [hframe o.mHistoDen (Nat.ne_of_lt ld) (by show o.mHistoDen ≠ S.length + 1; omega)]
      exact hod
  · intro μs hv
    obtain ⟨S2, o2, hrun⟩ := mutateAll_isSome R μs _ o
      (by rw [hlen]; omega) (by rw [hlen]; omega) hv
    obtain ⟨_, _, _, _, hframe⟩ := mutateAll_frame R μs _ _ _ _ hrun
    refine ⟨S2, o2, hrun, ?_, ?_⟩
    · exact hframe S.length (Nat.ne_of_gt ln) (Nat.ne_of_gt ld)
    · exact hframe (S.length + 1) (by omega) (by omega)

end RatioObject

namespace RatioObject

/-- Witness of `copy_independent` on the object holding the sample accumulator `accA`. -/
theorem copy_independent_witness :
    Sample.objA.load Sample.storeA = some (Sample.accA Rounding.ieee) ∧
    ∃ S1 c, copy Sample.storeA Sample.objA = some (S1, c) ∧
      (∀ μs : List Mutation, (∀ μ ∈ μs, μ.valid S1) →
        ∃ S2 c2, mutateAll Rounding.ieee S1 c μs = some (S2, c2) ∧
          S2[Sample.objA.mHistoNum]? = some (Sample.accA Rounding.ieee).mHistoNum ∧
          S2[Sample.objA.mHistoDen]? = some (Sample.accA Rounding.ieee).mHistoDen) := by
  have hload : Sample.objA.load Sample.storeA = some (Sample.accA Rounding.ieee) := rfl
  obtain ⟨S1, c, h1, _, _, _, _, _, _, _, h8, _⟩ :=
    copy_independent Rounding.ieee Sample.storeA Sample.objA (Sample.accA Rounding.ieee) hload
  exact ⟨hload, S1, c, h1, h8⟩

end RatioObject

end QC
